import Mathlib

/-!
# Verification of the order-book core of satansin123/trading-system

Shallow embedding of `src/main.cpp`.  The C++ core maintains, per side,
a sorted aggregation of price levels (price, total volume) plus a
per-order registry, in five interchangeable implementations:

* `OrderBookMap`               — `std::map` keyed by price (bids with
  `std::greater`, asks with `std::less`); best price read from `begin()`.
* `OrderBookVector`            — sorted `std::vector` (bids descending,
  asks ascending via `std::lower_bound`); best price read from `front()`.
* `OrderBookVectorEfficient`   — sorted `std::vector` (bids ascending,
  asks descending); best price read from `back()`.
* `OrderBookVectorBranchless`  — like Efficient but the binary search is
  the hand-written `branchless_lower_bound`.
* `OrderBookVectorLinear`      — like Efficient but positions are found
  by `std::find_if` linear scans.

Machine integers: `Price`/`Volume` are `int64_t` in the source; signed
overflow is undefined behaviour in C++, so their defined behaviour is
that of unbounded `Int`, which is what we use.  `OrderId` is `uint64_t`
and is only ever compared for equality, so we use `Nat`.

`std::unordered_map<OrderId, OrderDetails>` is modelled as an
association list with unique keys (insertion happens only after a failed
lookup, so keys stay unique); iteration order is never observed.

`std::map<Price, Volume, Comp>` is modelled as a list of levels strictly
sorted by `Comp`, which is exactly the ordered-iteration contract of
`std::map`; `begin()` is the head.  The level iterators the map book
stores inside `OrderDetails` always point at the unique node whose key
is the order's price; dereferencing them is modelled as lookup by that
price, and yields `none` (undefined behaviour in the source: use of an
invalidated iterator) when no such node exists.
-/

inductive Side where
  | Ask : Side
  | Bid : Side
deriving DecidableEq, Repr

structure PriceLevel where
  price : Int
  volume : Int
deriving DecidableEq, Repr

structure OrderDetails where
  side : Side
  price : Int
  originalVolume : Int
deriving DecidableEq, Repr

/-- One call of the three mutating operations of `IOrderBook`. -/
inductive Op where
  | add : Nat → Side → Int → Int → Op
  | modify : Nat → Int → Op
  | delete : Nat → Op
deriving DecidableEq, Repr

/-- `std::less<Price>` of the source. -/
def ltC (a b : Int) : Bool := a < b

/-- `std::greater<Price>` of the source. -/
def gtC (a b : Int) : Bool := a > b

/-- `mOrders.find(orderId)` on the registry. -/
def findOrder (os : List (Nat × OrderDetails)) (id : Nat) : Option OrderDetails :=
  (os.find? (fun e => e.1 == id)).map (·.2)

/-- `mOrders.erase(order_it)`: remove the (unique) entry with this id. -/
def eraseOrder (os : List (Nat × OrderDetails)) (id : Nat) : List (Nat × OrderDetails) :=
  os.filter (fun e => e.1 != id)

/-- `details.originalVolume = newVolume` on the registry entry of `id`. -/
def setOrderVolume (os : List (Nat × OrderDetails)) (id : Nat) (v : Int) :
    List (Nat × OrderDetails) :=
  os.map (fun e => if e.1 == id then (e.1, ⟨e.2.side, e.2.price, v⟩) else e)

/-- Position of the first level `pl` with `comp pl.price p = false`; the
length of the list when every level compares before `p`.  This is the
value of `std::lower_bound(levels, PriceLevel{p,0}, comp-on-price)` on a
partitioned range (the defining contract of `std::lower_bound`), and it
is also, literally, the `std::find_if` scan
`find_if(levels, [&](pl){ return !comp(pl.price, p); })` used by the
linear implementation's `AddOrderImpl`. -/
def firstNotBefore (comp : Int → Int → Bool) : List PriceLevel → Int → Nat
  | [], _ => 0
  | pl :: rest, p => if comp pl.price p then firstNotBefore comp rest p + 1 else 0

/-- Index of the first level whose price equals `p`
(`std::find_if(levels, [&](pl){ return pl.price == p; })`),
`none` when the scan reaches `end()`. -/
def findPriceIdx : List PriceLevel → Int → Option Nat
  | [], _ => none
  | pl :: rest, p => if pl.price = p then some 0 else (findPriceIdx rest p).map (· + 1)

/-- Loop of the source's `branchless_lower_bound`:
`first += comp(*mid, value) * (length - half); length = half`.
`l.getD mid value` stands for `*mid`; the loop keeps `mid` in bounds, so
the default is never consulted on the runs we reason about.  The first
argument is recursion fuel: the loop halves `len` every iteration, so
`len` units of fuel always suffice and the fuel is never exhausted on
the calls made below. -/
def blbAux {α : Type} (comp : α → α → Bool) (l : List α) (value : α) :
    Nat → Nat → Nat → Nat
  | 0, first, _ => first
  | _ + 1, first, 0 => first
  | fuel + 1, first, len + 1 =>
    let half := (len + 1) / 2
    let mid := first + half
    blbAux comp l value fuel
      (if comp (l.getD mid value) value then first + (len + 1 - half) else first) half

/-- The source's `branchless_lower_bound(first, last, value, comp)` as a
position into the list. -/
def branchlessLowerBound {α : Type} (comp : α → α → Bool) (l : List α) (value : α) : Nat :=
  blbAux comp l value l.length 0 l.length

/-- `branchless_lower_bound` applied the way the branchless book applies
it: probe `PriceLevel{p, 0}`, comparator comparing prices. -/
def blbSearch (comp : Int → Int → Bool) (l : List PriceLevel) (p : Int) : Nat :=
  branchlessLowerBound (fun a b => comp a.price b.price) l ⟨p, 0⟩

/-- `it = lower_bound(...); it != end() && it->price == p` — the level
position used by the binary-search books' Modify/Delete. -/
def lbLocate (comp : Int → Int → Bool) (l : List PriceLevel) (p : Int) : Option Nat :=
  let i := firstNotBefore comp l p
  match l.get? i with
  | some pl => if pl.price = p then some i else none
  | none => none

/-- Same check, with the branchless search in place of `lower_bound`. -/
def blbLocate (comp : Int → Int → Bool) (l : List PriceLevel) (p : Int) : Option Nat :=
  let i := blbSearch comp l p
  match l.get? i with
  | some pl => if pl.price = p then some i else none
  | none => none

/-- `it = find_if(levels, price == p); it != end()` — the level position
used by the linear book's Modify/Delete (comparator unused). -/
def linLocate (_comp : Int → Int → Bool) (l : List PriceLevel) (p : Int) : Option Nat :=
  findPriceIdx l p

/-- Body of `AddOrderImpl` after the search: bump the volume when the
found position holds exactly price `p`, otherwise insert a fresh level
there. -/
def addLevelsAt (i : Nat) (l : List PriceLevel) (p v : Int) : List PriceLevel :=
  match l.get? i with
  | some pl => if pl.price = p then l.set i ⟨pl.price, pl.volume + v⟩ else l.insertIdx i ⟨p, v⟩
  | none => l.insertIdx i ⟨p, v⟩

/-- Level-list effect of `ModifyOrder` once the order is known: locate
the level; `none` = position check failed (no change at all);
`some (l, true)` = aggregate went `≤ 0`, level erased;
`some (l, false)` = aggregate updated. -/
def modLevels (loc : List PriceLevel → Int → Option Nat) (l : List PriceLevel)
    (p diff : Int) : Option (List PriceLevel × Bool) :=
  match loc l p with
  | none => none
  | some i =>
    match l.get? i with
    | none => none
    | some pl =>
      if pl.volume + diff ≤ 0 then some (l.eraseIdx i, true)
      else some (l.set i ⟨pl.price, pl.volume + diff⟩, false)

/-- Level-list effect of `DeleteOrder` once the order is known: subtract
the order's remaining volume, erase the level if the aggregate is now
`≤ 0`; no change when the position check fails. -/
def delLevels (loc : List PriceLevel → Int → Option Nat) (l : List PriceLevel)
    (p vol : Int) : List PriceLevel :=
  match loc l p with
  | none => l
  | some i =>
    match l.get? i with
    | none => l
    | some pl =>
      if pl.volume - vol ≤ 0 then l.eraseIdx i
      else l.set i ⟨pl.price, pl.volume - vol⟩

/-- Shared state shape of the four vector books (and, with the sorted
association-list reading, of the map book): two level lists and the
order registry. -/
structure Book where
  bidLevels : List PriceLevel
  askLevels : List PriceLevel
  orders : List (Nat × OrderDetails)
deriving DecidableEq, Repr

def Book.empty : Book := ⟨[], [], []⟩

/-- What distinguishes the four vector books: the per-side comparators,
the search used by `AddOrderImpl`, the locate used by Modify/Delete, and
which array end `GetBestPrices` reads. -/
structure Strategy where
  bidComp : Int → Int → Bool
  askComp : Int → Int → Bool
  search : (Int → Int → Bool) → List PriceLevel → Int → Nat
  locate : (Int → Int → Bool) → List PriceLevel → Int → Option Nat
  frontBest : Bool

/-- One `IOrderBook` operation of a vector book. -/
def Strategy.step (K : Strategy) (s : Book) (op : Op) : Book :=
  match op with
  | .add id side p v =>
    match findOrder s.orders id with
    | some _ => s
    | none =>
      match side with
      | .Bid =>
        { s with bidLevels := addLevelsAt (K.search K.bidComp s.bidLevels p) s.bidLevels p v,
                 orders := (id, ⟨side, p, v⟩) :: s.orders }
      | .Ask =>
        { s with askLevels := addLevelsAt (K.search K.askComp s.askLevels p) s.askLevels p v,
                 orders := (id, ⟨side, p, v⟩) :: s.orders }
  | .modify id nv =>
    match findOrder s.orders id with
    | none => s
    | some d =>
      let diff := nv - d.originalVolume
      match d.side with
      | .Bid =>
        match modLevels (K.locate K.bidComp) s.bidLevels d.price diff with
        | none => s
        | some (l, true) => { s with bidLevels := l, orders := eraseOrder s.orders id }
        | some (l, false) => { s with bidLevels := l, orders := setOrderVolume s.orders id nv }
      | .Ask =>
        match modLevels (K.locate K.askComp) s.askLevels d.price diff with
        | none => s
        | some (l, true) => { s with askLevels := l, orders := eraseOrder s.orders id }
        | some (l, false) => { s with askLevels := l, orders := setOrderVolume s.orders id nv }
  | .delete id =>
    match findOrder s.orders id with
    | none => s
    | some d =>
      match d.side with
      | .Bid =>
        { s with bidLevels := delLevels (K.locate K.bidComp) s.bidLevels d.price d.originalVolume,
                 orders := eraseOrder s.orders id }
      | .Ask =>
        { s with askLevels := delLevels (K.locate K.askComp) s.askLevels d.price d.originalVolume,
                 orders := eraseOrder s.orders id }

/-- `GetBestPrices`: `(0,0)` when either side is empty, otherwise the
price at the strategy's chosen end of each level array. -/
def Strategy.best (K : Strategy) (s : Book) : Int × Int :=
  if s.bidLevels.isEmpty || s.askLevels.isEmpty then (0, 0)
  else if K.frontBest then
    ((s.bidLevels.headD ⟨0, 0⟩).price, (s.askLevels.headD ⟨0, 0⟩).price)
  else
    ((s.bidLevels.getLastD ⟨0, 0⟩).price, (s.askLevels.getLastD ⟨0, 0⟩).price)

/-- `OrderBookVector`: bids sorted descending (`std::greater`), asks
ascending (`std::less`), `std::lower_bound` searches, best at `front()`. -/
def stratVector : Strategy := ⟨gtC, ltC, firstNotBefore, lbLocate, true⟩

/-- `OrderBookVectorEfficient`: bids ascending (`std::less`), asks
descending (`std::greater`), `std::lower_bound` searches, best at `back()`. -/
def stratEfficient : Strategy := ⟨ltC, gtC, firstNotBefore, lbLocate, false⟩

/-- `OrderBookVectorBranchless`: like Efficient with
`branchless_lower_bound` in place of `std::lower_bound`. -/
def stratBranchless : Strategy := ⟨ltC, gtC, blbSearch, blbLocate, false⟩

/-- `OrderBookVectorLinear`: like Efficient but every position is found
by a linear `std::find_if` scan. -/
def stratLinear : Strategy := ⟨ltC, gtC, firstNotBefore, linLocate, false⟩

def vectorRun (ops : List Op) : Book := ops.foldl stratVector.step Book.empty

def efficientRun (ops : List Op) : Book := ops.foldl stratEfficient.step Book.empty

def branchlessRun (ops : List Op) : Book := ops.foldl stratBranchless.step Book.empty

def linearRun (ops : List Op) : Book := ops.foldl stratLinear.step Book.empty

def vectorBest (ops : List Op) : Int × Int := stratVector.best (vectorRun ops)

def efficientBest (ops : List Op) : Int × Int := stratEfficient.best (efficientRun ops)

def branchlessBest (ops : List Op) : Int × Int := stratBranchless.best (branchlessRun ops)

def linearBest (ops : List Op) : Int × Int := stratLinear.best (linearRun ops)

/-- `OrderBookMap::AddOrder`'s level action:
`try_emplace(price, volume)` followed by `it->second += volume` when the
key was already present, on a map held as a strictly `comp`-sorted list. -/
def mapInsertVolume (comp : Int → Int → Bool) : List PriceLevel → Int → Int → List PriceLevel
  | [], p, v => [⟨p, v⟩]
  | pl :: rest, p, v =>
    if pl.price = p then ⟨pl.price, pl.volume + v⟩ :: rest
    else if comp pl.price p then pl :: mapInsertVolume comp rest p v
    else ⟨p, v⟩ :: pl :: rest

/-- One `IOrderBook` operation of `OrderBookMap`.  The stored level
iterators are dereferenced by the order's price; `none` marks the
undefined behaviour of dereferencing an iterator whose node was erased. -/
def mapStep (s : Book) (op : Op) : Option Book :=
  match op with
  | .add id side p v =>
    match findOrder s.orders id with
    | some _ => some s
    | none =>
      match side with
      | .Bid => some { s with bidLevels := mapInsertVolume gtC s.bidLevels p v,
                              orders := (id, ⟨side, p, v⟩) :: s.orders }
      | .Ask => some { s with askLevels := mapInsertVolume ltC s.askLevels p v,
                              orders := (id, ⟨side, p, v⟩) :: s.orders }
  | .modify id nv =>
    match findOrder s.orders id with
    | none => some s
    | some d =>
      let diff := nv - d.originalVolume
      match d.side with
      | .Bid =>
        match modLevels findPriceIdx s.bidLevels d.price diff with
        | none => none
        | some (l, true) => some { s with bidLevels := l, orders := eraseOrder s.orders id }
        | some (l, false) =>
          some { s with bidLevels := l, orders := setOrderVolume s.orders id nv }
      | .Ask =>
        match modLevels findPriceIdx s.askLevels d.price diff with
        | none => none
        | some (l, true) => some { s with askLevels := l, orders := eraseOrder s.orders id }
        | some (l, false) =>
          some { s with askLevels := l, orders := setOrderVolume s.orders id nv }
  | .delete id =>
    match findOrder s.orders id with
    | none => some s
    | some d =>
      match d.side with
      | .Bid =>
        match findPriceIdx s.bidLevels d.price with
        | none => none
        | some _ =>
          some { s with bidLevels := delLevels findPriceIdx s.bidLevels d.price d.originalVolume,
                        orders := eraseOrder s.orders id }
      | .Ask =>
        match findPriceIdx s.askLevels d.price with
        | none => none
        | some _ =>
          some { s with askLevels := delLevels findPriceIdx s.askLevels d.price d.originalVolume,
                        orders := eraseOrder s.orders id }

/-- `OrderBookMap::GetBestPrices`: `begin()` of each sorted map, i.e. the
head of each sorted list; `(0,0)` when either map is empty. -/
def mapBest (s : Book) : Int × Int :=
  if s.bidLevels.isEmpty || s.askLevels.isEmpty then (0, 0)
  else ((s.bidLevels.headD ⟨0, 0⟩).price, (s.askLevels.headD ⟨0, 0⟩).price)

def mapRun (ops : List Op) : Option Book :=
  ops.foldl (fun acc op => acc.bind (fun s => mapStep s op)) (some Book.empty)

/-- Run a vector strategy from an arbitrary start state. -/
def runStrat (K : Strategy) (s : Book) (ops : List Op) : Book := ops.foldl K.step s

/-- Run the map book from an arbitrary start state. -/
def runMap (s : Book) (ops : List Op) : Option Book :=
  ops.foldl (fun acc op => acc.bind (fun t => mapStep t op)) (some s)

/-- A level list strictly sorted by `comp` on prices — the structural
invariant of every level store (and the iteration-order contract of
`std::map`). -/
def SortedBy (comp : Int → Int → Bool) (l : List PriceLevel) : Prop :=
  List.Pairwise (fun a b => comp a.price b.price = true) l

/-- The strict-total-order laws shared by `std::less` and `std::greater`
on `int64_t`. -/
structure CompOk (comp : Int → Int → Bool) : Prop where
  irrefl : ∀ a, comp a a = false
  trans : ∀ a b c, comp a b = true → comp b c = true → comp a c = true
  conn : ∀ a b, a ≠ b → comp a b = true ∨ comp b a = true

/-- First position at which `P` fails (list length when `P` holds
everywhere): the contract of `std::lower_bound` on a range partitioned
by `P = comp(elem, value)`. -/
def firstFalse {α : Type} (P : α → Bool) : List α → Nat
  | [] => 0
  | x :: rest => if P x then firstFalse P rest + 1 else 0

/-- `std::lower_bound(first, last, value, comp)` by its contract: the
first position whose element does not compare before `value`. -/
def stdLowerBound {α : Type} (comp : α → α → Bool) (l : List α) (value : α) : Nat :=
  firstFalse (fun x => comp x value) l

/-- Recursive form of the level insertion performed by `AddOrderImpl`:
walk past levels that compare before `p`, then bump the level holding
exactly `p` or insert a fresh `(p, v)` level. -/
def insertLevel (comp : Int → Int → Bool) : List PriceLevel → Int → Int → List PriceLevel
  | [], p, v => [⟨p, v⟩]
  | pl :: rest, p, v =>
    if comp pl.price p then pl :: insertLevel comp rest p v
    else if pl.price = p then ⟨pl.price, pl.volume + v⟩ :: rest
    else ⟨p, v⟩ :: pl :: rest

/-- Aggregated volume recorded at price `p`, read off the level list. -/
def levelVolAt (l : List PriceLevel) (p : Int) : Option Int :=
  (l.find? (fun pl => pl.price == p)).map (·.volume)

/-- Overwrite the aggregated volume at price `p`. -/
def setVolAt (l : List PriceLevel) (p w : Int) : List PriceLevel :=
  l.map (fun pl => if pl.price = p then ⟨pl.price, w⟩ else pl)

/-- Drop the level at price `p`. -/
def dropPrice (l : List PriceLevel) (p : Int) : List PriceLevel :=
  l.filter (fun pl => !(pl.price == p))

/-- The prices currently carrying a level. -/
def pricesOf (l : List PriceLevel) : List Int := l.map (·.price)

/-- The level lists of the side an order lives on. -/
def sideLevels (s : Book) : Side → List PriceLevel
  | .Bid => s.bidLevels
  | .Ask => s.askLevels

/-- Σ remainingVolume over the registered orders at `(side, price)`. -/
def aggOf (os : List (Nat × OrderDetails)) (sd : Side) (p : Int) : Int :=
  ((os.filter (fun e => e.2.side == sd && e.2.price == p)).map (·.2.originalVolume)).sum

/-- The specification hypotheses a vector strategy's search and locate
must satisfy on sorted input; all four strategies satisfy them. -/
structure StratOk (K : Strategy) : Prop where
  bidOk : CompOk K.bidComp
  askOk : CompOk K.askComp
  searchEq : ∀ comp l p, CompOk comp → SortedBy comp l →
    K.search comp l p = firstNotBefore comp l p
  locateEq : ∀ comp l p, CompOk comp → SortedBy comp l →
    K.locate comp l p = findPriceIdx l p

/-- Both level stores sorted by the strategy's comparators. -/
def WF (K : Strategy) (s : Book) : Prop :=
  SortedBy K.bidComp s.bidLevels ∧ SortedBy K.askComp s.askLevels

/-- Two book states that agree up to the storage order of their level
arrays: same level multisets per side, identical registries. -/
def Couple (s t : Book) : Prop :=
  s.bidLevels.Perm t.bidLevels ∧ s.askLevels.Perm t.askLevels ∧ s.orders = t.orders

/-- Operations whose volume argument is positive (`deleteOrder` has
none).  The random load generator of the source only emits volumes in
`[10, 100]`, hence only such operations. -/
def posOp : Op → Bool
  | .add _ _ _ v => 0 < v
  | .modify _ nv => 0 < nv
  | .delete _ => true

/-- Sequences of positive-volume operations. -/
def allPos (ops : List Op) : Prop := ∀ op ∈ ops, posOp op = true

/-- Operations whose `addOrder` volume is positive (modify volumes are
unconstrained). -/
def posAddOp : Op → Bool
  | .add _ _ _ v => 0 < v
  | _ => true

def allPosAdd (ops : List Op) : Prop := ∀ op ∈ ops, posAddOp op = true

/-- Every level's aggregated volume is positive. -/
def posLevels (s : Book) : Prop :=
  (∀ pl ∈ s.bidLevels, 0 < pl.volume) ∧ ∀ pl ∈ s.askLevels, 0 < pl.volume

/-- Every registered order's remaining volume is positive. -/
def posOrders (s : Book) : Prop := ∀ e ∈ s.orders, 0 < e.2.originalVolume

/-- The full consistency invariant maintained on positive-volume
sequences: sorted stores, unique registry ids, every live order has
positive volume and a level at its price on its side, and every level's
aggregate is Σ remainingVolume of the live orders at its `(price, side)`. -/
def PosInv (s : Book) : Prop :=
  WF stratVector s ∧
  (s.orders.map (·.1)).Nodup ∧
  (∀ e ∈ s.orders, 0 < e.2.originalVolume ∧ e.2.price ∈ pricesOf (sideLevels s e.2.side)) ∧
  (∀ pl ∈ s.bidLevels, pl.volume = aggOf s.orders .Bid pl.price) ∧
  (∀ pl ∈ s.askLevels, pl.volume = aggOf s.orders .Ask pl.price)

/-- What `getBestPrices` must return when both sides are non-empty: the
maximum live bid price and the minimum live ask price. -/
def BestSpec (b : Int × Int) (s : Book) : Prop :=
  (b.1 ∈ pricesOf s.bidLevels ∧ ∀ q ∈ pricesOf s.bidLevels, q ≤ b.1) ∧
  (b.2 ∈ pricesOf s.askLevels ∧ ∀ q ∈ pricesOf s.askLevels, b.2 ≤ q)

/-- The aggregation invariant of the spec: every level's volume is
Σ remainingVolume of the registered orders at its `(price, side)`, and
every registered order's price has exactly one level on its side. -/
def AggInv (s : Book) : Prop :=
  (∀ pl ∈ s.bidLevels, pl.volume = aggOf s.orders .Bid pl.price) ∧
  (∀ pl ∈ s.askLevels, pl.volume = aggOf s.orders .Ask pl.price) ∧
  (∀ e ∈ s.orders, (sideLevels s e.2.side).countP (fun pl => pl.price == e.2.price) = 1)

example : vectorBest [] = (0, 0) := by decide

example : vectorBest [Op.add 1 Side.Bid 100 50] = (0, 0) := by decide

example : vectorBest [Op.add 1 Side.Bid 100 50, Op.add 2 Side.Ask 150 30] = (100, 150) := by
  decide

example : efficientBest [Op.add 1 Side.Bid 100 50, Op.add 2 Side.Ask 150 30] = (100, 150) := by
  decide

example :
    branchlessBest [Op.add 1 Side.Bid 100 50, Op.add 3 Side.Bid 105 10, Op.add 4 Side.Bid 95 7,
      Op.add 2 Side.Ask 150 30, Op.add 5 Side.Ask 140 1] = (105, 140) := by decide

example :
    linearBest [Op.add 1 Side.Bid 100 50, Op.add 3 Side.Bid 105 10, Op.add 4 Side.Bid 95 7,
      Op.add 2 Side.Ask 150 30, Op.add 5 Side.Ask 140 1] = (105, 140) := by decide

example :
    (mapRun [Op.add 1 Side.Bid 100 50, Op.add 3 Side.Bid 105 10,
      Op.add 2 Side.Ask 150 30]).map mapBest = some (105, 150) := by decide

example :
    vectorRun [Op.add 1 Side.Bid 100 50, Op.add 2 Side.Bid 100 30, Op.modify 1 (-100)] =
      ⟨[], [], [(2, ⟨Side.Bid, 100, 30⟩)]⟩ := by decide

example :
    mapRun [Op.add 1 Side.Bid 100 50, Op.add 2 Side.Bid 100 30, Op.modify 1 (-100),
      Op.modify 2 5] = none := by decide

/-! ## Comparator laws -/

theorem ltC_ok : CompOk ltC where
  irrefl a := by simp [ltC]
  trans a b c h1 h2 := by simp only [ltC, decide_eq_true_eq] at *; omega
  conn a b h := by simp only [ltC, decide_eq_true_eq]; omega

theorem gtC_ok : CompOk gtC where
  irrefl a := by simp [gtC]
  trans a b c h1 h2 := by simp only [gtC, decide_eq_true_eq] at *; omega
  conn a b h := by simp only [gtC, decide_eq_true_eq]; omega

/-! ## firstFalse: the lower_bound contract -/

theorem firstFalse_le_length {α : Type} (P : α → Bool) (l : List α) :
    firstFalse P l ≤ l.length := by
  induction l with
  | nil => simp [firstFalse]
  | cons x rest ih =>
    by_cases h : P x = true <;> simp [firstFalse, h] <;> omega

theorem firstFalse_true_lt {α : Type} (P : α → Bool) (l : List α) (d : α) :
    ∀ i < firstFalse P l, P (l.getD i d) = true := by
  induction l with
  | nil => simp [firstFalse]
  | cons x rest ih =>
    by_cases h : P x = true
    · intro i hi
      simp only [firstFalse, h, if_true] at hi
      cases i with
      | zero => simpa using h
      | succ i => simpa using ih i (by omega)
    · simp [firstFalse, h]

theorem firstFalse_false_self {α : Type} (P : α → Bool) (l : List α) (d : α) :
    firstFalse P l < l.length → P (l.getD (firstFalse P l) d) = false := by
  induction l with
  | nil => simp [firstFalse]
  | cons x rest ih =>
    by_cases h : P x = true
    · intro hlen
      simp only [firstFalse, h, if_true] at hlen ⊢
      simpa using ih (by simpa using hlen)
    · intro _
      simpa [firstFalse, h] using h

theorem firstFalse_ge {α : Type} (P : α → Bool) (l : List α) (d : α) (k : Nat)
    (hk : k ≤ l.length) (h : ∀ i < k, P (l.getD i d) = true) : k ≤ firstFalse P l := by
  induction l generalizing k with
  | nil => simp only [List.length_nil] at hk; simp [firstFalse]; omega
  | cons x rest ih =>
    cases k with
    | zero => omega
    | succ k =>
      have hx : P x = true := by simpa using h 0 (by omega)
      simp only [firstFalse, hx, if_true]
      have := ih (k := k) (by simpa using hk) (fun i hi => by simpa using h (i + 1) (by omega))
      omega

theorem firstFalse_le {α : Type} (P : α → Bool) (l : List α) (d : α) (k : Nat)
    (hk : k < l.length) (h : P (l.getD k d) = false) : firstFalse P l ≤ k := by
  induction l generalizing k with
  | nil => simp at hk
  | cons x rest ih =>
    cases k with
    | zero =>
      simp only [List.getD_cons_zero] at h
      simp [firstFalse, h]
    | succ k =>
      by_cases hx : P x = true
      · simp only [firstFalse, hx, if_true]
        have := ih (k := k) (by simpa using hk) (by simpa using h)
        omega
      · simp [firstFalse, hx]

/-! ## branchless_lower_bound equals the lower_bound contract -/

theorem blbAux_eq {α : Type} (comp : α → α → Bool) (l : List α) (v : α)
    (hpart : ∀ i j, i ≤ j → j < l.length →
      comp (l.getD j v) v = true → comp (l.getD i v) v = true) :
    ∀ fuel first len, len ≤ fuel → first + len ≤ l.length →
      (∀ i < first, comp (l.getD i v) v = true) →
      (∀ j, first + len ≤ j → j < l.length → comp (l.getD j v) v = false) →
      blbAux comp l v fuel first len = firstFalse (fun x => comp x v) l := by
  intro fuel
  induction fuel with
  | zero =>
    intro first len hlen hbnd hlow hhigh
    have hlen0 : len = 0 := by omega
    subst hlen0
    have h1 : first ≤ firstFalse (fun x => comp x v) l :=
      firstFalse_ge _ l v first (by omega) hlow
    have h2 : firstFalse (fun x => comp x v) l ≤ first := by
      rcases Nat.lt_or_ge first l.length with hlt | hge
      · exact firstFalse_le _ l v first hlt (hhigh first (by omega) hlt)
      · exact le_trans (firstFalse_le_length _ l) hge
    simp [blbAux]; omega
  | succ fuel ih =>
    intro first len hlen hbnd hlow hhigh
    cases len with
    | zero =>
      have h1 : first ≤ firstFalse (fun x => comp x v) l :=
        firstFalse_ge _ l v first (by omega) hlow
      have h2 : firstFalse (fun x => comp x v) l ≤ first := by
        rcases Nat.lt_or_ge first l.length with hlt | hge
        · exact firstFalse_le _ l v first hlt (hhigh first (by omega) hlt)
        · exact le_trans (firstFalse_le_length _ l) hge
      simp [blbAux]; omega
    | succ len =>
      have hdm := Nat.div_add_mod (len + 1) 2
      have hml := Nat.mod_lt (len + 1) (show 0 < 2 by omega)
      have hmidlt : first + (len + 1) / 2 < l.length := by omega
      have hunfold : blbAux comp l v (fuel + 1) first (len + 1) =
          blbAux comp l v fuel
            (if comp (l.getD (first + (len + 1) / 2) v) v then first + (len + 1 - (len + 1) / 2)
             else first) ((len + 1) / 2) := rfl
      rw [hunfold]
      cases hc : comp (l.getD (first + (len + 1) / 2) v) v with
      | true =>
        simp only [if_true]
        apply ih
        · omega
        · omega
        · intro i hi
          exact hpart i (first + (len + 1) / 2) (by omega) hmidlt hc
        · intro j hj hjl
          exact hhigh j (by omega) hjl
      | false =>
        simp only [Bool.false_eq_true, if_false]
        apply ih
        · omega
        · omega
        · exact hlow
        · intro j hj hjl
          rcases Nat.eq_or_lt_of_le hj with hje | hjlt

          · exact hje ▸ hc
          · cases hcv : comp (l.getD j v) v with
            | true =>
              exact absurd (hpart (first + (len + 1) / 2) j (by omega) hjl hcv)
                (fun hcc => by rw [hcc] at hc; cases hc)
            | false => rfl

theorem branchlessLowerBound_eq {α : Type} (comp : α → α → Bool) (l : List α) (v : α)
    (hpart : ∀ i j, i ≤ j → j < l.length →
      comp (l.getD j v) v = true → comp (l.getD i v) v = true) :
    branchlessLowerBound comp l v = firstFalse (fun x => comp x v) l := by
  unfold branchlessLowerBound
  refine blbAux_eq comp l v hpart l.length 0 l.length (le_refl _) (by omega) ?_ ?_
  · intro i hi; exact absurd hi (by omega)
  · intro j hj hjl; exact absurd hjl (by omega)

theorem pairwise_partitioned {α : Type} (comp : α → α → Bool) (l : List α) (v : α)
    (htr : ∀ a b c, comp a b = true → comp b c = true → comp a c = true)
    (hs : l.Pairwise (fun a b => comp a b = true)) :
    ∀ i j, i ≤ j → j < l.length →
      comp (l.getD j v) v = true → comp (l.getD i v) v = true := by
  intro i j hij hjl hj
  rcases Nat.eq_or_lt_of_le hij with rfl | hlt
  · exact hj
  · have hil : i < l.length := by omega
    have hrel := List.pairwise_iff_getElem.mp hs i j hil hjl hlt
    rw [List.getD_eq_getElem l v hil]
    rw [List.getD_eq_getElem l v hjl] at hj
    exact htr _ _ _ hrel hj

theorem firstNotBefore_eq_firstFalse (comp : Int → Int → Bool) (l : List PriceLevel) (p : Int) :
    firstNotBefore comp l p = firstFalse (fun pl => comp pl.price p) l := by
  induction l with
  | nil => rfl
  | cons pl rest ih => by_cases h : comp pl.price p = true <;> simp [firstNotBefore, firstFalse, h, ih]

theorem blbSearch_eq (comp : Int → Int → Bool) (l : List PriceLevel) (p : Int)
    (hok : CompOk comp) (hs : SortedBy comp l) :
    blbSearch comp l p = firstNotBefore comp l p := by
  unfold blbSearch
  rw [branchlessLowerBound_eq]
  · rw [firstNotBefore_eq_firstFalse]
  · exact pairwise_partitioned (fun a b => comp a.price b.price) l ⟨p, 0⟩
      (fun a b c h1 h2 => hok.trans a.price b.price c.price h1 h2)
      (show List.Pairwise (fun a b => comp a.price b.price = true) l from hs)

/-! ## Locate: all search styles agree on sorted stores -/

theorem sortedBy_cons {comp : Int → Int → Bool} {pl : PriceLevel} {rest : List PriceLevel} :
    SortedBy comp (pl :: rest) ↔
      (∀ x ∈ rest, comp pl.price x.price = true) ∧ SortedBy comp rest :=
  List.pairwise_cons

theorem sorted_nodupPrices {comp : Int → Int → Bool} {l : List PriceLevel}
    (hok : CompOk comp) (hs : SortedBy comp l) : (pricesOf l).Nodup := by
  unfold pricesOf
  have hpw : List.Pairwise (fun a b : PriceLevel => a.price ≠ b.price) l := by
    refine hs.imp ?_
    intro a b hab heq
    rw [heq, hok.irrefl b.price] at hab
    cases hab
  show List.Pairwise (fun a b : Int => a ≠ b) (List.map (fun x => x.price) l)
  refine List.Pairwise.map (fun x : PriceLevel => x.price) ?_ hpw
  intro a b h
  exact h

theorem findPriceIdx_none_iff (l : List PriceLevel) (p : Int) :
    findPriceIdx l p = none ↔ p ∉ pricesOf l := by
  induction l with
  | nil => simp [findPriceIdx, pricesOf]
  | cons pl rest ih =>
    by_cases h : pl.price = p
    · simp [findPriceIdx, h, pricesOf]
    · cases hf : findPriceIdx rest p with
      | none =>
        have hnm := ih.mp hf
        simp only [findPriceIdx, h, if_false, hf, Option.map_none', pricesOf, List.map_cons,
          List.mem_cons]
        constructor
        · intro _ hor
          rcases hor with hor | hor
          · exact h hor.symm
          · exact hnm (by simpa [pricesOf] using hor)
        · intro _; trivial
      | some j =>
        have hmem : p ∈ pricesOf rest := by
          by_contra hnm2
          rw [ih.mpr hnm2] at hf
          cases hf
        simp only [findPriceIdx, h, if_false, hf, Option.map_some', pricesOf, List.map_cons,
          List.mem_cons]
        constructor
        · intro hcc; cases hcc
        · intro hni
          exact absurd (Or.inr (by simpa [pricesOf] using hmem)) hni

theorem levelVolAt_none_iff (l : List PriceLevel) (p : Int) :
    levelVolAt l p = none ↔ findPriceIdx l p = none := by
  induction l with
  | nil => simp [levelVolAt, findPriceIdx]
  | cons pl rest ih =>
    by_cases h : pl.price = p
    · simp [levelVolAt, findPriceIdx, List.find?_cons, h]
    · cases hf : findPriceIdx rest p with
      | none =>
        simp only [hf, true_iff] at ih
        simp [levelVolAt, findPriceIdx, List.find?_cons, h, hf, ih]
        simpa [levelVolAt] using ih
      | some j =>
        have hne : levelVolAt rest p ≠ none := by
          intro hcc
          rw [ih.mp hcc] at hf
          cases hf
        simp only [levelVolAt, List.find?_cons] at hne ⊢
        simp only [findPriceIdx, h, if_false, hf, Option.map_some']
        have hb : (pl.price == p) = false := by simpa using h
        rw [hb]
        constructor
        · intro hcc; exact absurd hcc hne
        · intro hcc; cases hcc

theorem findPriceIdx_some_get (l : List PriceLevel) (p : Int) (i : Nat)
    (h : findPriceIdx l p = some i) :
    ∃ pl, l.get? i = some pl ∧ pl.price = p ∧ levelVolAt l p = some pl.volume := by
  induction l generalizing i with
  | nil => simp [findPriceIdx] at h
  | cons pl rest ih =>
    by_cases hp : pl.price = p
    · simp only [findPriceIdx, hp, if_true, Option.some_inj] at h
      subst h
      exact ⟨pl, rfl, hp, by simp [levelVolAt, List.find?_cons, hp]⟩
    · simp only [findPriceIdx, hp, if_false] at h
      cases hf : findPriceIdx rest p with
      | none => rw [hf] at h; cases h
      | some j =>
        rw [hf] at h
        simp only [Option.map_some', Option.some_inj] at h
        rcases ih j hf with ⟨pl2, hget, hprice, hvol⟩
        have hb : (pl.price == p) = false := by simpa using hp
        refine ⟨pl2, ?_, hprice, ?_⟩
        · rw [← h]; simpa using hget
        · simp only [levelVolAt, List.find?_cons, hb]
          simpa [levelVolAt] using hvol

theorem lbLocate_eq_findPriceIdx {comp : Int → Int → Bool} {l : List PriceLevel} (p : Int)
    (hok : CompOk comp) (hs : SortedBy comp l) :
    lbLocate comp l p = findPriceIdx l p := by
  induction l with
  | nil => rfl
  | cons pl rest ih =>
    rw [sortedBy_cons] at hs
    by_cases hc : comp pl.price p = true
    · have hne : pl.price ≠ p := by
        intro he; rw [he, hok.irrefl p] at hc; cases hc
      have ihr := ih hs.2
      simp only [lbLocate, firstNotBefore, hc, if_true, findPriceIdx, hne, if_false]
      simp only [lbLocate] at ihr
      cases hg : rest.get? (firstNotBefore comp rest p) with
      | none =>
        simp only [hg] at ihr
        simp only [List.get?_cons_succ, hg, ← ihr, Option.map_none']
      | some pl2 =>
        simp only [hg] at ihr
        by_cases hp2 : pl2.price = p
        · simp only [hp2, if_true] at ihr
          simp only [List.get?_cons_succ, hg, hp2, if_true, ← ihr, Option.map_some']
        · simp only [hp2, if_false] at ihr
          simp only [List.get?_cons_succ, hg, hp2, if_false, ← ihr, Option.map_none']
    · simp only [lbLocate, firstNotBefore, hc, if_false]
      by_cases hp : pl.price = p
      · simp [findPriceIdx, hp]
      · have hrest : findPriceIdx rest p = none := by
          rw [findPriceIdx_none_iff]
          intro hmem
          rcases List.mem_map.mp hmem with ⟨x, hx, hxp⟩
          have hrel := hs.1 x hx
          rw [hxp] at hrel
          exact hc hrel
        simp [findPriceIdx, hp, hrest]

theorem blbLocate_eq_findPriceIdx {comp : Int → Int → Bool} {l : List PriceLevel} (p : Int)
    (hok : CompOk comp) (hs : SortedBy comp l) :
    blbLocate comp l p = findPriceIdx l p := by
  unfold blbLocate
  rw [blbSearch_eq comp l p hok hs]
  exact lbLocate_eq_findPriceIdx p hok hs

/-! ## AddOrderImpl: search-plus-insert equals the recursive insertion -/

theorem addLevelsAt_cons_succ (i : Nat) (pl : PriceLevel) (rest : List PriceLevel) (p v : Int) :
    addLevelsAt (i + 1) (pl :: rest) p v = pl :: addLevelsAt i rest p v := by
  unfold addLevelsAt
  cases hg : rest[i]? with
  | none =>
    simp [List.get?_eq_getElem?, List.getElem?_cons_succ, hg, List.insertIdx_succ_cons]
  | some pl2 =>
    by_cases hp : pl2.price = p <;>
      simp [List.get?_eq_getElem?, List.getElem?_cons_succ, hg, hp, List.set_cons_succ,
        List.insertIdx_succ_cons]

theorem addLevelsAt_firstNotBefore (comp : Int → Int → Bool) (l : List PriceLevel) (p v : Int) :
    addLevelsAt (firstNotBefore comp l p) l p v = insertLevel comp l p v := by
  induction l with
  | nil => rfl
  | cons pl rest ih =>
    by_cases hc : comp pl.price p = true
    · simp only [firstNotBefore, hc, if_true, insertLevel]
      rw [addLevelsAt_cons_succ, ih]
    · simp only [firstNotBefore, hc, if_false, insertLevel]
      by_cases hp : pl.price = p <;> simp [addLevelsAt, List.get?_cons_zero, hp]

theorem mapInsertVolume_eq_insertLevel (comp : Int → Int → Bool)
    (hirr : ∀ a, comp a a = false) (l : List PriceLevel) (p v : Int) :
    mapInsertVolume comp l p v = insertLevel comp l p v := by
  induction l with
  | nil => rfl
  | cons pl rest ih =>
    by_cases hp : pl.price = p
    · have hc2 : comp p p = false := hirr p
      simp [mapInsertVolume, insertLevel, hp, hc2]
    · by_cases hc : comp pl.price p = true <;>
        simp [mapInsertVolume, insertLevel, hp, hc, ih]

theorem insertLevel_price_mem (comp : Int → Int → Bool) (l : List PriceLevel) (p v : Int) :
    ∀ x ∈ insertLevel comp l p v, x.price = p ∨ x.price ∈ pricesOf l := by
  induction l with
  | nil => intro x hx; simp [insertLevel] at hx; simp [hx]
  | cons pl rest ih =>
    intro x hx
    by_cases hc : comp pl.price p = true
    · simp only [insertLevel, hc, if_true, List.mem_cons] at hx
      rcases hx with rfl | hx
      · right; simp [pricesOf]
      · rcases ih x hx with h | h
        · exact Or.inl h
        · right; simp [pricesOf] at h ⊢; exact Or.inr h
    · rw [Bool.not_eq_true] at hc
      by_cases hp : pl.price = p
      · rw [hp] at hc
        simp only [insertLevel, hc, Bool.false_eq_true, if_false, hp, if_true,
          List.mem_cons] at hx
        rcases hx with rfl | hx
        · exact Or.inl rfl
        · right; simp [pricesOf]; right; exact ⟨x, hx, rfl⟩
      · simp only [insertLevel, hc, Bool.false_eq_true, if_false, hp, if_false,
          List.mem_cons] at hx
        rcases hx with rfl | rfl | hx
        · exact Or.inl rfl
        · right; simp [pricesOf]
        · right; simp [pricesOf]; right; exact ⟨x, hx, rfl⟩

theorem insertLevel_sorted {comp : Int → Int → Bool} (hok : CompOk comp)
    {l : List PriceLevel} (hs : SortedBy comp l) (p v : Int) :
    SortedBy comp (insertLevel comp l p v) := by
  induction l with
  | nil => simp [insertLevel, SortedBy]
  | cons pl rest ih =>
    rw [sortedBy_cons] at hs
    by_cases hc : comp pl.price p = true
    · simp only [insertLevel, hc, if_true]
      rw [sortedBy_cons]
      refine ⟨?_, ih hs.2⟩
      intro x hx
      rcases insertLevel_price_mem comp rest p v x hx with h | h
      · rw [h]; exact hc
      · rcases List.mem_map.mp h with ⟨y, hy, hyp⟩
        rw [← hyp]; exact hs.1 y hy
    · rw [Bool.not_eq_true] at hc
      by_cases hp : pl.price = p
      · rw [hp] at hc
        simp only [insertLevel, hc, Bool.false_eq_true, if_false, hp, if_true]
        rw [sortedBy_cons]
        refine ⟨?_, hs.2⟩
        intro x hx
        have := hs.1 x hx
        rw [hp] at this
        exact this
      · simp only [insertLevel, hc, Bool.false_eq_true, if_false, hp, if_false]
        have hcp : comp p pl.price = true := by
          rcases hok.conn pl.price p hp with h | h
          · rw [h] at hc; cases hc
          · exact h
        rw [sortedBy_cons]
        constructor
        · intro x hx
          rcases List.mem_cons.mp hx with rfl | hx
          · exact hcp
          · exact hok.trans p pl.price x.price hcp (hs.1 x hx)
        · rw [sortedBy_cons]; exact hs

/-! ## Canonical effect of insertion -/

theorem insertLevel_perm_absent (comp : Int → Int → Bool) (l : List PriceLevel) (p v : Int)
    (habs : p ∉ pricesOf l) :
    (insertLevel comp l p v).Perm (⟨p, v⟩ :: l) := by
  induction l with
  | nil => simp [insertLevel]
  | cons pl rest ih =>
    have hne : pl.price ≠ p := by
      intro he; exact habs (by simp [pricesOf, he])
    have habs2 : p ∉ pricesOf rest := by
      intro hm; exact habs (by simp [pricesOf] at hm ⊢; right; exact hm)
    by_cases hc : comp pl.price p = true
    · simp only [insertLevel, hc, if_true]
      exact ((ih habs2).cons pl).trans (List.Perm.swap _ _ _)
    · rw [Bool.not_eq_true] at hc
      simp [insertLevel, hc, hne]

theorem setVolAt_of_not_mem (l : List PriceLevel) (p w : Int) (habs : p ∉ pricesOf l) :
    setVolAt l p w = l := by
  induction l with
  | nil => rfl
  | cons pl rest ih =>
    have hne : pl.price ≠ p := fun he => habs (by simp [pricesOf, he])
    have habs2 : p ∉ pricesOf rest := fun hm => habs (by simp [pricesOf] at hm ⊢; right; exact hm)
    simp [setVolAt, hne, ih habs2]
    exact ih habs2

theorem dropPrice_of_not_mem (l : List PriceLevel) (p : Int) (habs : p ∉ pricesOf l) :
    dropPrice l p = l := by
  apply List.filter_eq_self.mpr
  intro pl hm
  have : pl.price ≠ p := by
    intro he; exact habs (by simp [pricesOf]; exact ⟨pl, hm, he⟩)
  simpa using this

theorem setVolAt_cons (pl : PriceLevel) (rest : List PriceLevel) (p w : Int) :
    setVolAt (pl :: rest) p w =
      (if pl.price = p then (⟨pl.price, w⟩ : PriceLevel) else pl) :: setVolAt rest p w := rfl

theorem insertLevel_present {comp : Int → Int → Bool} (hok : CompOk comp)
    {l : List PriceLevel} (hs : SortedBy comp l) (p v V : Int)
    (hvol : levelVolAt l p = some V) :
    insertLevel comp l p v = setVolAt l p (V + v) := by
  induction l with
  | nil => simp [levelVolAt] at hvol
  | cons pl rest ih =>
    rw [sortedBy_cons] at hs
    by_cases hp : pl.price = p
    · have hV : pl.volume = V := by
        simp [levelVolAt, List.find?_cons, hp] at hvol
        exact hvol
      have habs : p ∉ pricesOf rest := by
        intro hm
        rcases List.mem_map.mp hm with ⟨x, hx, hxp⟩
        have hrel := hs.1 x hx
        rw [hxp, hp, hok.irrefl p] at hrel
        cases hrel
      have hc : comp p p = false := hok.irrefl p
      simp only [insertLevel, hp, hc, Bool.false_eq_true, if_false, if_true]
      rw [setVolAt_cons, setVolAt_of_not_mem rest p (V + v) habs]
      simp [hp, hV]
    · have hb : (pl.price == p) = false := by simpa using hp
      have hvol2 : levelVolAt rest p = some V := by
        simpa [levelVolAt, List.find?_cons, hb] using hvol
      have hmem : p ∈ pricesOf rest := by
        by_contra habs
        have : levelVolAt rest p = none := by
          rw [levelVolAt_none_iff, findPriceIdx_none_iff]
          exact habs
        rw [this] at hvol2
        cases hvol2
      have hc : comp pl.price p = true := by
        rcases List.mem_map.mp hmem with ⟨x, hx, hxp⟩
        have hrel := hs.1 x hx
        rw [hxp] at hrel
        exact hrel
      simp only [insertLevel, hc, if_true]
      rw [setVolAt_cons]
      simp only [hp, if_false]
      exact congrArg _ (ih hs.2 hvol2)

/-! ## Canonical effect of Modify/Delete on a level store -/

theorem modLevels_fpi_cons_ne (pl : PriceLevel) (rest : List PriceLevel) (p diff : Int)
    (hp : pl.price ≠ p) :
    modLevels findPriceIdx (pl :: rest) p diff =
      (modLevels findPriceIdx rest p diff).map (fun x => (pl :: x.1, x.2)) := by
  unfold modLevels
  simp only [findPriceIdx, hp, if_false]
  cases hf : findPriceIdx rest p with
  | none => simp
  | some i =>
    simp only [Option.map_some']
    cases hg : rest[i]? with
    | none => simp [List.get?_eq_getElem?, List.getElem?_cons_succ, hg]
    | some pl2 =>
      by_cases hv : pl2.volume + diff ≤ 0 <;>
        simp [List.get?_eq_getElem?, List.getElem?_cons_succ, hg, hv,
          List.eraseIdx_cons_succ, List.set_cons_succ]

theorem dropPrice_cons (pl : PriceLevel) (rest : List PriceLevel) (p : Int) :
    dropPrice (pl :: rest) p =
      if pl.price = p then dropPrice rest p else pl :: dropPrice rest p := by
  by_cases hp : pl.price = p <;> simp [dropPrice, List.filter_cons, hp]

theorem modLevels_canon (l : List PriceLevel) (p diff : Int) (hnd : (pricesOf l).Nodup) :
    modLevels findPriceIdx l p diff =
      match levelVolAt l p with
      | none => none
      | some V =>
        if V + diff ≤ 0 then some (dropPrice l p, true)
        else some (setVolAt l p (V + diff), false) := by
  induction l with
  | nil => rfl
  | cons pl rest ih =>
    have hnd2 : (pricesOf rest).Nodup := by
      simp only [pricesOf, List.map_cons, List.nodup_cons] at hnd
      exact hnd.2
    by_cases hp : pl.price = p
    · have habs : p ∉ pricesOf rest := by
        simp only [pricesOf, List.map_cons, List.nodup_cons] at hnd
        rw [← hp]
        exact hnd.1
      have hlv : levelVolAt (pl :: rest) p = some pl.volume := by
        simp [levelVolAt, List.find?_cons, hp]
      unfold modLevels
      simp only [findPriceIdx, hp, if_true, hlv]
      by_cases hv : pl.volume + diff ≤ 0
      · simp only [hv, if_true, List.get?_cons_zero, List.eraseIdx_cons_zero]
        rw [dropPrice_cons]
        simp [hp, dropPrice_of_not_mem rest p habs]
      · simp only [hv, if_false, List.get?_cons_zero, List.set_cons_succ]
        rw [setVolAt_cons, setVolAt_of_not_mem rest p (pl.volume + diff) habs]
        simp [hp]
    · have hb : (pl.price == p) = false := by simpa using hp
      have hlv : levelVolAt (pl :: rest) p = levelVolAt rest p := by
        simp [levelVolAt, List.find?_cons, hb]
      rw [modLevels_fpi_cons_ne pl rest p diff hp, ih hnd2, hlv]
      cases hV : levelVolAt rest p with
      | none => simp
      | some V =>
        by_cases hv : V + diff ≤ 0
        · simp only [hv, if_true, Option.map_some']
          rw [dropPrice_cons]
          simp [hp]
        · simp only [hv, if_false, Option.map_some']
          rw [setVolAt_cons]
          simp [hp]

theorem delLevels_fpi_cons_ne (pl : PriceLevel) (rest : List PriceLevel) (p vol : Int)
    (hp : pl.price ≠ p) :
    delLevels findPriceIdx (pl :: rest) p vol = pl :: delLevels findPriceIdx rest p vol := by
  unfold delLevels
  simp only [findPriceIdx, hp, if_false]
  cases hf : findPriceIdx rest p with
  | none => simp
  | some i =>
    simp only [Option.map_some']
    cases hg : rest[i]? with
    | none => simp [List.get?_eq_getElem?, List.getElem?_cons_succ, hg]
    | some pl2 =>
      by_cases hv : pl2.volume - vol ≤ 0 <;>
        simp [List.get?_eq_getElem?, List.getElem?_cons_succ, hg, hv,
          List.eraseIdx_cons_succ, List.set_cons_succ]

theorem delLevels_canon (l : List PriceLevel) (p vol : Int) (hnd : (pricesOf l).Nodup) :
    delLevels findPriceIdx l p vol =
      match levelVolAt l p with
      | none => l
      | some V => if V - vol ≤ 0 then dropPrice l p else setVolAt l p (V - vol) := by
  induction l with
  | nil => rfl
  | cons pl rest ih =>
    have hnd2 : (pricesOf rest).Nodup := by
      simp only [pricesOf, List.map_cons, List.nodup_cons] at hnd
      exact hnd.2
    by_cases hp : pl.price = p
    · have habs : p ∉ pricesOf rest := by
        simp only [pricesOf, List.map_cons, List.nodup_cons] at hnd
        rw [← hp]
        exact hnd.1
      have hlv : levelVolAt (pl :: rest) p = some pl.volume := by
        simp [levelVolAt, List.find?_cons, hp]
      unfold delLevels
      simp only [findPriceIdx, hp, if_true, hlv]
      by_cases hv : pl.volume - vol ≤ 0
      · simp only [hv, if_true, List.get?_cons_zero, List.eraseIdx_cons_zero]
        rw [dropPrice_cons]
        simp [hp, dropPrice_of_not_mem rest p habs]
      · simp only [hv, if_false, List.get?_cons_zero]
        rw [setVolAt_cons, setVolAt_of_not_mem rest p (pl.volume - vol) habs]
        simp [hp]
    · have hb : (pl.price == p) = false := by simpa using hp
      have hlv : levelVolAt (pl :: rest) p = levelVolAt rest p := by
        simp [levelVolAt, List.find?_cons, hb]
      rw [delLevels_fpi_cons_ne pl rest p vol hp, ih hnd2, hlv]
      cases hV : levelVolAt rest p with
      | none => simp
      | some V =>
        by_cases hv : V - vol ≤ 0
        · simp only [hv, if_true]
          rw [dropPrice_cons]
          simp [hp]
        · simp only [hv, if_false]
          rw [setVolAt_cons]
          simp [hp]

/-! ## Sortedness and lookup facts about the canonical forms -/

theorem pricesOf_setVolAt (l : List PriceLevel) (p w : Int) :
    pricesOf (setVolAt l p w) = pricesOf l := by
  induction l with
  | nil => rfl
  | cons pl rest ih =>
    rw [setVolAt_cons]
    by_cases hp : pl.price = p <;> simp [pricesOf, hp] <;> simpa [pricesOf] using ih

theorem sortedBy_iff_prices {comp : Int → Int → Bool} {l : List PriceLevel} :
    SortedBy comp l ↔ List.Pairwise (fun a b => comp a b = true) (pricesOf l) :=
  (@List.pairwise_map PriceLevel Int (fun x => x.price) (fun a b => comp a b = true) l).symm

theorem setVolAt_sorted {comp : Int → Int → Bool} {l : List PriceLevel}
    (hs : SortedBy comp l) (p w : Int) : SortedBy comp (setVolAt l p w) := by
  rw [sortedBy_iff_prices, pricesOf_setVolAt]
  exact sortedBy_iff_prices.mp hs

theorem dropPrice_sorted {comp : Int → Int → Bool} {l : List PriceLevel}
    (hs : SortedBy comp l) (p : Int) : SortedBy comp (dropPrice l p) :=
  List.Pairwise.filter _ hs

theorem levelVolAt_some_mem (l : List PriceLevel) (p v : Int)
    (h : levelVolAt l p = some v) : (⟨p, v⟩ : PriceLevel) ∈ l := by
  unfold levelVolAt at h
  cases hf : l.find? (fun pl => pl.price == p) with
  | none => rw [hf] at h; cases h
  | some pl =>
    rw [hf] at h
    simp only [Option.map_some', Option.some_inj] at h
    have hp : pl.price = p := by simpa using List.find?_some hf
    have hm := List.mem_of_find?_eq_some hf
    have : pl = ⟨p, v⟩ := by
      cases pl
      simp only [PriceLevel.mk.injEq]
      exact ⟨hp, h⟩
    rw [← this]
    exact hm

theorem mem_levelVolAt (l : List PriceLevel) (p v : Int) (hnd : (pricesOf l).Nodup)
    (hm : (⟨p, v⟩ : PriceLevel) ∈ l) : levelVolAt l p = some v := by
  induction l with
  | nil => cases hm
  | cons pl rest ih =>
    have hnd2 : (pricesOf rest).Nodup := by
      simp only [pricesOf, List.map_cons, List.nodup_cons] at hnd
      exact hnd.2
    rcases List.mem_cons.mp hm with rfl | hm2
    · simp [levelVolAt, List.find?_cons]
    · have hp : pl.price ≠ p := by
        intro he
        simp only [pricesOf, List.map_cons, List.nodup_cons] at hnd
        exact hnd.1 (List.mem_map.mpr ⟨⟨p, v⟩, hm2, by simp [he]⟩)
      have hb : (pl.price == p) = false := by simpa using hp
      simp only [levelVolAt, List.find?_cons, hb]
      exact ih hnd2 hm2

theorem levelVolAt_perm {l l2 : List PriceLevel} (hperm : l.Perm l2)
    (hnd : (pricesOf l).Nodup) (p : Int) : levelVolAt l p = levelVolAt l2 p := by
  have hpp : (pricesOf l).Perm (pricesOf l2) := hperm.map _
  have hnd2 : (pricesOf l2).Nodup := hpp.nodup_iff.mp hnd
  cases hv : levelVolAt l p with
  | some v =>
    exact (mem_levelVolAt l2 p v hnd2 (hperm.mem_iff.mp (levelVolAt_some_mem l p v hv))).symm
  | none =>
    rw [levelVolAt_none_iff, findPriceIdx_none_iff] at hv
    have : p ∉ pricesOf l2 := fun hm => hv (hpp.mem_iff.mpr hm)
    rw [eq_comm, levelVolAt_none_iff, findPriceIdx_none_iff]
    exact this

/-! ## The four strategies satisfy the search/locate specification -/

theorem stratVector_ok : StratOk stratVector where
  bidOk := gtC_ok
  askOk := ltC_ok
  searchEq comp l p _ _ := rfl
  locateEq comp l p hok hs := lbLocate_eq_findPriceIdx p hok hs

theorem stratEfficient_ok : StratOk stratEfficient where
  bidOk := ltC_ok
  askOk := gtC_ok
  searchEq comp l p _ _ := rfl
  locateEq comp l p hok hs := lbLocate_eq_findPriceIdx p hok hs

theorem stratBranchless_ok : StratOk stratBranchless where
  bidOk := ltC_ok
  askOk := gtC_ok
  searchEq comp l p hok hs := blbSearch_eq comp l p hok hs
  locateEq comp l p hok hs := blbLocate_eq_findPriceIdx p hok hs

theorem stratLinear_ok : StratOk stratLinear where
  bidOk := ltC_ok
  askOk := gtC_ok
  searchEq comp l p _ _ := rfl
  locateEq comp l p _ _ := rfl

theorem addLevelsAt_search_eq {K : Strategy} (hK : StratOk K) {comp : Int → Int → Bool}
    (hok : CompOk comp) {l : List PriceLevel} (hs : SortedBy comp l) (p v : Int) :
    addLevelsAt (K.search comp l p) l p v = insertLevel comp l p v := by
  rw [hK.searchEq comp l p hok hs, addLevelsAt_firstNotBefore]

theorem modLevels_locate_eq {K : Strategy} (hK : StratOk K) {comp : Int → Int → Bool}
    (hok : CompOk comp) {l : List PriceLevel} (hs : SortedBy comp l) (p diff : Int) :
    modLevels (K.locate comp) l p diff = modLevels findPriceIdx l p diff := by
  unfold modLevels
  rw [hK.locateEq comp l p hok hs]

theorem delLevels_locate_eq {K : Strategy} (hK : StratOk K) {comp : Int → Int → Bool}
    (hok : CompOk comp) {l : List PriceLevel} (hs : SortedBy comp l) (p vol : Int) :
    delLevels (K.locate comp) l p vol = delLevels findPriceIdx l p vol := by
  unfold delLevels
  rw [hK.locateEq comp l p hok hs]

/-! ## Sortedness is preserved by every operation -/

theorem modLevels_sorted {comp : Int → Int → Bool} (hok : CompOk comp)
    {l : List PriceLevel} (hs : SortedBy comp l) (p diff : Int) {l2 : List PriceLevel}
    {b : Bool} (h : modLevels findPriceIdx l p diff = some (l2, b)) : SortedBy comp l2 := by
  rw [modLevels_canon l p diff (sorted_nodupPrices hok hs)] at h
  cases hV : levelVolAt l p with
  | none => rw [hV] at h; cases h
  | some V =>
    rw [hV] at h
    by_cases hv : V + diff ≤ 0
    · simp only [hv, if_true, Option.some_inj, Prod.mk.injEq] at h
      rw [← h.1]
      exact dropPrice_sorted hs p
    · simp only [hv, if_false, Option.some_inj, Prod.mk.injEq] at h
      rw [← h.1]
      exact setVolAt_sorted hs p (V + diff)

theorem delLevels_sorted {comp : Int → Int → Bool} (hok : CompOk comp)
    {l : List PriceLevel} (hs : SortedBy comp l) (p vol : Int) :
    SortedBy comp (delLevels findPriceIdx l p vol) := by
  rw [delLevels_canon l p vol (sorted_nodupPrices hok hs)]
  cases hV : levelVolAt l p with
  | none => exact hs
  | some V =>
    by_cases hv : V - vol ≤ 0
    · simp only [hv, if_true]; exact dropPrice_sorted hs p
    · simp only [hv, if_false]; exact setVolAt_sorted hs p (V - vol)

theorem stepWF {K : Strategy} (hK : StratOk K) {s : Book} (hwf : WF K s) (op : Op) :
    WF K (K.step s op) := by
  obtain ⟨hwb, hwa⟩ := hwf
  cases op with
  | add id side p v =>
    cases hfo : findOrder s.orders id with
    | some d => simpa [Strategy.step, hfo] using ⟨hwb, hwa⟩
    | none =>
      cases side with
      | Bid =>
        simp only [Strategy.step, hfo]
        refine ⟨?_, hwa⟩
        rw [addLevelsAt_search_eq hK hK.bidOk hwb p v]
        exact insertLevel_sorted hK.bidOk hwb p v
      | Ask =>
        simp only [Strategy.step, hfo]
        refine ⟨hwb, ?_⟩
        rw [addLevelsAt_search_eq hK hK.askOk hwa p v]
        exact insertLevel_sorted hK.askOk hwa p v
  | modify id nv =>
    cases hfo : findOrder s.orders id with
    | none => simpa [Strategy.step, hfo] using ⟨hwb, hwa⟩
    | some d =>
      cases hside : d.side with
      | Bid =>
        simp only [Strategy.step, hfo, hside]
        rw [modLevels_locate_eq hK hK.bidOk hwb d.price (nv - d.originalVolume)]
        cases hm : modLevels findPriceIdx s.bidLevels d.price (nv - d.originalVolume) with
        | none => exact ⟨hwb, hwa⟩
        | some r =>
          cases r with
          | mk l2 b =>
            cases b
            · exact ⟨modLevels_sorted hK.bidOk hwb _ _ hm, hwa⟩
            · exact ⟨modLevels_sorted hK.bidOk hwb _ _ hm, hwa⟩
      | Ask =>
        simp only [Strategy.step, hfo, hside]
        rw [modLevels_locate_eq hK hK.askOk hwa d.price (nv - d.originalVolume)]
        cases hm : modLevels findPriceIdx s.askLevels d.price (nv - d.originalVolume) with
        | none => exact ⟨hwb, hwa⟩
        | some r =>
          cases r with
          | mk l2 b =>
            cases b
            · exact ⟨hwb, modLevels_sorted hK.askOk hwa _ _ hm⟩
            · exact ⟨hwb, modLevels_sorted hK.askOk hwa _ _ hm⟩
  | delete id =>
    cases hfo : findOrder s.orders id with
    | none => simpa [Strategy.step, hfo] using ⟨hwb, hwa⟩
    | some d =>
      cases hside : d.side with
      | Bid =>
        simp only [Strategy.step, hfo, hside]
        rw [delLevels_locate_eq hK hK.bidOk hwb d.price d.originalVolume]
        exact ⟨delLevels_sorted hK.bidOk hwb _ _, hwa⟩
      | Ask =>
        simp only [Strategy.step, hfo, hside]
        rw [delLevels_locate_eq hK hK.askOk hwa d.price d.originalVolume]
        exact ⟨hwb, delLevels_sorted hK.askOk hwa _ _⟩

theorem runWF {K : Strategy} (hK : StratOk K) (ops : List Op) :
    ∀ s : Book, WF K s → WF K (runStrat K s ops) := by
  induction ops with
  | nil => intro s h; exact h
  | cons op rest ih =>
    intro s h
    exact ih (K.step s op) (stepWF hK h op)

/-! ## Coupling: any sorted strategy simulates the reference (Vector) book -/

theorem insertLevel_couple {c1 c2 : Int → Int → Bool} (h1 : CompOk c1) (h2 : CompOk c2)
    {l1 l2 : List PriceLevel} (hs1 : SortedBy c1 l1) (hs2 : SortedBy c2 l2)
    (hperm : l1.Perm l2) (p v : Int) :
    (insertLevel c1 l1 p v).Perm (insertLevel c2 l2 p v) := by
  have hnd1 := sorted_nodupPrices h1 hs1
  have hlv := levelVolAt_perm hperm hnd1 p
  cases hV : levelVolAt l1 p with
  | none =>
    have h2V : levelVolAt l2 p = none := by rw [← hlv]; exact hV
    have habs1 : p ∉ pricesOf l1 :=
      (findPriceIdx_none_iff l1 p).mp ((levelVolAt_none_iff l1 p).mp hV)
    have habs2 : p ∉ pricesOf l2 :=
      (findPriceIdx_none_iff l2 p).mp ((levelVolAt_none_iff l2 p).mp h2V)
    exact (insertLevel_perm_absent c1 l1 p v habs1).trans
      ((hperm.cons _).trans (insertLevel_perm_absent c2 l2 p v habs2).symm)
  | some V =>
    have h2V : levelVolAt l2 p = some V := by rw [← hlv]; exact hV
    rw [insertLevel_present h1 hs1 p v V hV, insertLevel_present h2 hs2 p v V h2V]
    exact hperm.map _

theorem stepCouple {K : Strategy} (hK : StratOk K) {s t : Book} (hwfs : WF K s)
    (hwft : WF stratVector t) (hc : Couple s t) (op : Op) :
    Couple (K.step s op) (stratVector.step t op) := by
  obtain ⟨hpb, hpa, hor⟩ := hc
  obtain ⟨hsb, hsa⟩ := hwfs
  obtain ⟨htb, hta⟩ := hwft
  cases op with
  | add id side p v =>
    cases hfo : findOrder t.orders id with
    | some d =>
      have hfo1 : findOrder s.orders id = some d := by rw [hor]; exact hfo
      simp only [Strategy.step, hfo, hfo1]
      exact ⟨hpb, hpa, hor⟩
    | none =>
      have hfo1 : findOrder s.orders id = none := by rw [hor]; exact hfo
      cases side with
      | Bid =>
        simp only [Strategy.step, hfo, hfo1]
        refine ⟨?_, hpa, by rw [hor]⟩
        rw [addLevelsAt_search_eq hK hK.bidOk hsb p v,
          addLevelsAt_search_eq stratVector_ok (show CompOk stratVector.bidComp from gtC_ok) htb p v]
        exact insertLevel_couple hK.bidOk gtC_ok hsb htb hpb p v
      | Ask =>
        simp only [Strategy.step, hfo, hfo1]
        refine ⟨hpb, ?_, by rw [hor]⟩
        rw [addLevelsAt_search_eq hK hK.askOk hsa p v,
          addLevelsAt_search_eq stratVector_ok (show CompOk stratVector.askComp from ltC_ok) hta p v]
        exact insertLevel_couple hK.askOk ltC_ok hsa hta hpa p v
  | modify id nv =>
    cases hfo : findOrder t.orders id with
    | none =>
      have hfo1 : findOrder s.orders id = none := by rw [hor]; exact hfo
      simp only [Strategy.step, hfo, hfo1]
      exact ⟨hpb, hpa, hor⟩
    | some d =>
      have hfo1 : findOrder s.orders id = some d := by rw [hor]; exact hfo
      cases hside : d.side with
      | Bid =>
        simp only [Strategy.step, hfo, hfo1, hside]
        have hnd1 := sorted_nodupPrices hK.bidOk hsb
        have hndt := sorted_nodupPrices gtC_ok htb
        rw [modLevels_locate_eq hK hK.bidOk hsb d.price (nv - d.originalVolume),
          modLevels_locate_eq stratVector_ok (show CompOk stratVector.bidComp from gtC_ok) htb d.price (nv - d.originalVolume),
          modLevels_canon _ _ _ hnd1, modLevels_canon _ _ _ hndt,
          levelVolAt_perm hpb hnd1 d.price]
        cases hV : levelVolAt t.bidLevels d.price with
        | none => exact ⟨hpb, hpa, hor⟩
        | some V =>
          by_cases hv : V + (nv - d.originalVolume) ≤ 0
          · simp only [hv, if_true]
            exact ⟨hpb.filter _, hpa, by rw [hor]⟩
          · simp only [hv, if_false]
            exact ⟨hpb.map _, hpa, by rw [hor]⟩
      | Ask =>
        simp only [Strategy.step, hfo, hfo1, hside]
        have hnd1 := sorted_nodupPrices hK.askOk hsa
        have hndt := sorted_nodupPrices ltC_ok hta
        rw [modLevels_locate_eq hK hK.askOk hsa d.price (nv - d.originalVolume),
          modLevels_locate_eq stratVector_ok (show CompOk stratVector.askComp from ltC_ok) hta d.price (nv - d.originalVolume),
          modLevels_canon _ _ _ hnd1, modLevels_canon _ _ _ hndt,
          levelVolAt_perm hpa hnd1 d.price]
        cases hV : levelVolAt t.askLevels d.price with
        | none => exact ⟨hpb, hpa, hor⟩
        | some V =>
          by_cases hv : V + (nv - d.originalVolume) ≤ 0
          · simp only [hv, if_true]
            exact ⟨hpb, hpa.filter _, by rw [hor]⟩
          · simp only [hv, if_false]
            exact ⟨hpb, hpa.map _, by rw [hor]⟩
  | delete id =>
    cases hfo : findOrder t.orders id with
    | none =>
      have hfo1 : findOrder s.orders id = none := by rw [hor]; exact hfo
      simp only [Strategy.step, hfo, hfo1]
      exact ⟨hpb, hpa, hor⟩
    | some d =>
      have hfo1 : findOrder s.orders id = some d := by rw [hor]; exact hfo
      cases hside : d.side with
      | Bid =>
        simp only [Strategy.step, hfo, hfo1, hside]
        have hnd1 := sorted_nodupPrices hK.bidOk hsb
        have hndt := sorted_nodupPrices gtC_ok htb
        rw [delLevels_locate_eq hK hK.bidOk hsb d.price d.originalVolume,
          delLevels_locate_eq stratVector_ok (show CompOk stratVector.bidComp from gtC_ok) htb d.price d.originalVolume,
          delLevels_canon _ _ _ hnd1, delLevels_canon _ _ _ hndt,
          levelVolAt_perm hpb hnd1 d.price]
        cases hV : levelVolAt t.bidLevels d.price with
        | none => exact ⟨hpb, hpa, by rw [hor]⟩
        | some V =>
          by_cases hv : V - d.originalVolume ≤ 0
          · simp only [hv, if_true]
            exact ⟨hpb.filter _, hpa, by rw [hor]⟩
          · simp only [hv, if_false]
            exact ⟨hpb.map _, hpa, by rw [hor]⟩
      | Ask =>
        simp only [Strategy.step, hfo, hfo1, hside]
        have hnd1 := sorted_nodupPrices hK.askOk hsa
        have hndt := sorted_nodupPrices ltC_ok hta
        rw [delLevels_locate_eq hK hK.askOk hsa d.price d.originalVolume,
          delLevels_locate_eq stratVector_ok (show CompOk stratVector.askComp from ltC_ok) hta d.price d.originalVolume,
          delLevels_canon _ _ _ hnd1, delLevels_canon _ _ _ hndt,
          levelVolAt_perm hpa hnd1 d.price]
        cases hV : levelVolAt t.askLevels d.price with
        | none => exact ⟨hpb, hpa, by rw [hor]⟩
        | some V =>
          by_cases hv : V - d.originalVolume ≤ 0
          · simp only [hv, if_true]
            exact ⟨hpb, hpa.filter _, by rw [hor]⟩
          · simp only [hv, if_false]
            exact ⟨hpb, hpa.map _, by rw [hor]⟩

theorem runCouple {K : Strategy} (hK : StratOk K) (ops : List Op) :
    ∀ s t : Book, WF K s → WF stratVector t → Couple s t →
      Couple (runStrat K s ops) (runStrat stratVector t ops) := by
  induction ops with
  | nil => intro s t _ _ hc; exact hc
  | cons op rest ih =>
    intro s t hws hwt hc
    exact ih (K.step s op) (stratVector.step t op) (stepWF hK hws op)
      (stepWF stratVector_ok hwt op) (stepCouple hK hws hwt hc op)

/-! ## GetBestPrices reads the extreme prices of each sorted store -/

theorem sorted_head_rel {comp : Int → Int → Bool} (l : List PriceLevel)
    (hs : SortedBy comp l) (x : PriceLevel) (hx : l.head? = some x) :
    x ∈ l ∧ ∀ y ∈ l, y = x ∨ comp x.price y.price = true := by
  cases l with
  | nil => cases hx
  | cons pl rest =>
    rw [List.head?_cons, Option.some_inj] at hx
    subst hx
    rw [sortedBy_cons] at hs
    refine ⟨List.mem_cons_self _ _, ?_⟩
    intro y hy
    rcases List.mem_cons.mp hy with rfl | hy2
    · exact Or.inl rfl
    · exact Or.inr (hs.1 y hy2)

theorem sorted_getLast_rel {comp : Int → Int → Bool} :
    ∀ l : List PriceLevel, SortedBy comp l → ∀ x : PriceLevel, l.getLast? = some x →
      x ∈ l ∧ ∀ y ∈ l, y = x ∨ comp y.price x.price = true := by
  intro l
  induction l with
  | nil => intro _ x h; cases h
  | cons pl rest ih =>
    intro hs x hx
    cases rest with
    | nil =>
      simp only [List.getLast?_singleton, Option.some_inj] at hx
      subst hx
      refine ⟨List.mem_singleton_self _, ?_⟩
      intro y hy
      rw [List.mem_singleton] at hy
      exact Or.inl hy
    | cons pl2 rest2 =>
      rw [List.getLast?_cons_cons] at hx
      rw [sortedBy_cons] at hs
      rcases ih hs.2 x hx with ⟨hmem, hall⟩
      refine ⟨List.mem_cons_of_mem _ hmem, ?_⟩
      intro y hy
      rcases List.mem_cons.mp hy with rfl | hy2
      · exact Or.inr (hs.1 x hmem)
      · exact hall y hy2

theorem best_spec_front {s : Book} (hwf : WF stratVector s)
    (hb : s.bidLevels ≠ []) (ha : s.askLevels ≠ []) :
    BestSpec (stratVector.best s) s := by
  obtain ⟨hwb, hwa⟩ := hwf
  cases hcb : s.bidLevels with
  | nil => exact absurd hcb hb
  | cons pb rb =>
    cases hca : s.askLevels with
    | nil => exact absurd hca ha
    | cons pa ra =>
      have hbest : stratVector.best s = (pb.price, pa.price) := by
        simp [Strategy.best, stratVector, hcb, hca]
      rw [hbest]
      rw [hcb] at hwb
      rw [hca] at hwa
      constructor
      · rcases sorted_head_rel (pb :: rb) hwb pb rfl with ⟨hmem, hall⟩
        refine ⟨by rw [hcb]; exact List.mem_map.mpr ⟨pb, hmem, rfl⟩, ?_⟩
        intro q hq
        rw [hcb] at hq
        rcases List.mem_map.mp hq with ⟨y, hy, rfl⟩
        rcases hall y hy with rfl | hgt
        · exact le_refl _
        · simp only [stratVector, stratEfficient, gtC, decide_eq_true_eq] at hgt
          omega
      · rcases sorted_head_rel (pa :: ra) hwa pa rfl with ⟨hmem, hall⟩
        refine ⟨by rw [hca]; exact List.mem_map.mpr ⟨pa, hmem, rfl⟩, ?_⟩
        intro q hq
        rw [hca] at hq
        rcases List.mem_map.mp hq with ⟨y, hy, rfl⟩
        rcases hall y hy with rfl | hlt
        · exact le_refl _
        · simp only [stratVector, stratEfficient, ltC, decide_eq_true_eq] at hlt
          omega

theorem best_spec_back {s : Book} (hwf : WF stratEfficient s)
    (hb : s.bidLevels ≠ []) (ha : s.askLevels ≠ []) :
    BestSpec (stratEfficient.best s) s := by
  obtain ⟨hwb, hwa⟩ := hwf
  rcases List.exists_mem_of_ne_nil _ hb with ⟨wb, hwbm⟩
  rcases List.exists_mem_of_ne_nil _ ha with ⟨wa, hwam⟩
  cases hgb : s.bidLevels.getLast? with
  | none => rw [List.getLast?_eq_none_iff] at hgb; exact absurd hgb hb
  | some xb =>
    cases hga : s.askLevels.getLast? with
    | none => rw [List.getLast?_eq_none_iff] at hga; exact absurd hga ha
    | some xa =>
      have hbest : stratEfficient.best s = (xb.price, xa.price) := by
        simp [Strategy.best, stratEfficient, List.getLastD_eq_getLast?, hgb, hga,
          List.isEmpty_iff, hb, ha]
      rw [hbest]
      rcases sorted_getLast_rel s.bidLevels hwb xb hgb with ⟨hmb, hallb⟩
      rcases sorted_getLast_rel s.askLevels hwa xa hga with ⟨hma, halla⟩
      constructor
      · refine ⟨List.mem_map.mpr ⟨xb, hmb, rfl⟩, ?_⟩
        intro q hq
        rcases List.mem_map.mp hq with ⟨y, hy, rfl⟩
        rcases hallb y hy with rfl | hlt
        · exact le_refl _
        · simp only [stratVector, stratEfficient, ltC, decide_eq_true_eq] at hlt
          omega
      · refine ⟨List.mem_map.mpr ⟨xa, hma, rfl⟩, ?_⟩
        intro q hq
        rcases List.mem_map.mp hq with ⟨y, hy, rfl⟩
        rcases halla y hy with rfl | hgt
        · exact le_refl _
        · simp only [stratVector, stratEfficient, gtC, decide_eq_true_eq] at hgt
          omega

theorem bestSpec_couple_eq {b1 b2 : Int × Int} {s t : Book} (h1 : BestSpec b1 s)
    (h2 : BestSpec b2 t) (hc : Couple s t) : b1 = b2 := by
  obtain ⟨hpb, hpa, _⟩ := hc
  have hppb : (pricesOf s.bidLevels).Perm (pricesOf t.bidLevels) := hpb.map _
  have hppa : (pricesOf s.askLevels).Perm (pricesOf t.askLevels) := hpa.map _
  have e1 : b1.1 = b2.1 := by
    have hle1 := h2.1.2 b1.1 (hppb.mem_iff.mp h1.1.1)
    have hle2 := h1.1.2 b2.1 (hppb.mem_iff.mpr h2.1.1)
    omega
  have e2 : b1.2 = b2.2 := by
    have hle1 := h2.2.2 b1.2 (hppa.mem_iff.mp h1.2.1)
    have hle2 := h1.2.2 b2.2 (hppa.mem_iff.mpr h2.2.1)
    omega
  exact Prod.ext e1 e2

/-! ## Run-level equalities for the vector family -/

theorem WF_empty (K : Strategy) : WF K Book.empty :=
  ⟨List.Pairwise.nil, List.Pairwise.nil⟩

theorem Couple_refl (s : Book) : Couple s s :=
  ⟨List.Perm.refl _, List.Perm.refl _, rfl⟩

theorem best_eq_back {K : Strategy} (hK : StratOk K) (hKbid : K.bidComp = ltC)
    (hKask : K.askComp = gtC) (hKf : K.frontBest = false) {s t : Book}
    (hwfs : WF K s) (hwft : WF stratVector t) (hc : Couple s t) :
    K.best s = stratVector.best t := by
  have hwfs2 : WF stratEfficient s := by
    obtain ⟨h1, h2⟩ := hwfs
    rw [hKbid] at h1
    rw [hKask] at h2
    exact ⟨h1, h2⟩
  have hbe : K.best s = stratEfficient.best s := by
    unfold Strategy.best
    rw [hKf]
    rfl
  rw [hbe]
  by_cases hb : s.bidLevels = []
  · have htb : t.bidLevels = [] := by
      have hp := hc.1
      rw [hb] at hp
      exact hp.nil_eq.symm
    simp [Strategy.best, List.isEmpty_iff, hb, htb]
  · by_cases ha : s.askLevels = []
    · have hta : t.askLevels = [] := by
        have hp := hc.2.1
        rw [ha] at hp
        exact hp.nil_eq.symm
      simp [Strategy.best, List.isEmpty_iff, ha, hta]
    · have htb : t.bidLevels ≠ [] := by
        intro he
        have hp := hc.1
        rw [he] at hp
        exact hb hp.eq_nil
      have hta : t.askLevels ≠ [] := by
        intro he
        have hp := hc.2.1
        rw [he] at hp
        exact ha hp.eq_nil
      exact bestSpec_couple_eq (best_spec_back hwfs2 hb ha) (best_spec_front hwft htb hta) hc

theorem efficientBest_eq_vectorBest (ops : List Op) : efficientBest ops = vectorBest ops := by
  have hwfs := runWF stratEfficient_ok ops Book.empty (WF_empty _)
  have hwft := runWF stratVector_ok ops Book.empty (WF_empty _)
  have hc := runCouple stratEfficient_ok ops Book.empty Book.empty (WF_empty _) (WF_empty _)
    (Couple_refl _)
  exact best_eq_back stratEfficient_ok rfl rfl rfl hwfs hwft hc

theorem branchlessBest_eq_vectorBest (ops : List Op) : branchlessBest ops = vectorBest ops := by
  have hwfs := runWF stratBranchless_ok ops Book.empty (WF_empty _)
  have hwft := runWF stratVector_ok ops Book.empty (WF_empty _)
  have hc := runCouple stratBranchless_ok ops Book.empty Book.empty (WF_empty _) (WF_empty _)
    (Couple_refl _)
  exact best_eq_back stratBranchless_ok rfl rfl rfl hwfs hwft hc

theorem linearBest_eq_vectorBest (ops : List Op) : linearBest ops = vectorBest ops := by
  have hwfs := runWF stratLinear_ok ops Book.empty (WF_empty _)
  have hwft := runWF stratVector_ok ops Book.empty (WF_empty _)
  have hc := runCouple stratLinear_ok ops Book.empty Book.empty (WF_empty _) (WF_empty _)
    (Couple_refl _)
  exact best_eq_back stratLinear_ok rfl rfl rfl hwfs hwft hc

/-! ## The map book preserves sortedness and reads the same best prices -/

theorem mapBest_eq_vectorBest (s : Book) : mapBest s = stratVector.best s := rfl

theorem mapStep_WF {s s' : Book} {op : Op} (hwf : WF stratVector s)
    (h : mapStep s op = some s') : WF stratVector s' := by
  have hwb : SortedBy gtC s.bidLevels := hwf.1
  have hwa : SortedBy ltC s.askLevels := hwf.2
  cases op with
  | add id side p v =>
    cases hfo : findOrder s.orders id with
    | some d =>
      simp only [mapStep, hfo, Option.some_inj] at h
      rw [← h]
      exact hwf
    | none =>
      cases side with
      | Bid =>
        simp only [mapStep, hfo, Option.some_inj] at h
        rw [← h]
        refine ⟨?_, hwa⟩
        rw [mapInsertVolume_eq_insertLevel gtC gtC_ok.irrefl]
        exact insertLevel_sorted gtC_ok hwb p v
      | Ask =>
        simp only [mapStep, hfo, Option.some_inj] at h
        rw [← h]
        refine ⟨hwb, ?_⟩
        rw [mapInsertVolume_eq_insertLevel ltC ltC_ok.irrefl]
        exact insertLevel_sorted ltC_ok hwa p v
  | modify id nv =>
    cases hfo : findOrder s.orders id with
    | none =>
      simp only [mapStep, hfo, Option.some_inj] at h
      rw [← h]
      exact hwf
    | some d =>
      cases hside : d.side with
      | Bid =>
        simp only [mapStep, hfo, hside] at h
        cases hm : modLevels findPriceIdx s.bidLevels d.price (nv - d.originalVolume) with
        | none => rw [hm] at h; cases h
        | some r =>
          rw [hm] at h
          cases r with
          | mk l2 b =>
            cases b <;> simp only [Option.some_inj] at h <;> rw [← h] <;>
              exact ⟨modLevels_sorted gtC_ok hwb _ _ hm, hwa⟩
      | Ask =>
        simp only [mapStep, hfo, hside] at h
        cases hm : modLevels findPriceIdx s.askLevels d.price (nv - d.originalVolume) with
        | none => rw [hm] at h; cases h
        | some r =>
          rw [hm] at h
          cases r with
          | mk l2 b =>
            cases b <;> simp only [Option.some_inj] at h <;> rw [← h] <;>
              exact ⟨hwb, modLevels_sorted ltC_ok hwa _ _ hm⟩
  | delete id =>
    cases hfo : findOrder s.orders id with
    | none =>
      simp only [mapStep, hfo, Option.some_inj] at h
      rw [← h]
      exact hwf
    | some d =>
      cases hside : d.side with
      | Bid =>
        simp only [mapStep, hfo, hside] at h
        cases hfp : findPriceIdx s.bidLevels d.price with
        | none => rw [hfp] at h; cases h
        | some i =>
          rw [hfp] at h
          simp only [Option.some_inj] at h
          rw [← h]
          exact ⟨delLevels_sorted gtC_ok hwb _ _, hwa⟩
      | Ask =>
        simp only [mapStep, hfo, hside] at h
        cases hfp : findPriceIdx s.askLevels d.price with
        | none => rw [hfp] at h; cases h
        | some i =>
          rw [hfp] at h
          simp only [Option.some_inj] at h
          rw [← h]
          exact ⟨hwb, delLevels_sorted ltC_ok hwa _ _⟩

theorem mapFold_none (ops : List Op) :
    ops.foldl (fun acc op => acc.bind (fun t => mapStep t op)) none = none := by
  induction ops with
  | nil => rfl
  | cons op rest ih => simpa using ih

theorem runMap_cons (s : Book) (op : Op) (rest : List Op) :
    runMap s (op :: rest) = (mapStep s op).bind (fun s1 => runMap s1 rest) := by
  unfold runMap
  cases h : mapStep s op with
  | none => simp [h, mapFold_none]
  | some s1 => simp [h]

theorem runMap_WF (ops : List Op) :
    ∀ s s' : Book, WF stratVector s → runMap s ops = some s' → WF stratVector s' := by
  induction ops with
  | nil =>
    intro s s' hwf h
    simp only [runMap, List.foldl_nil, Option.some_inj] at h
    rw [← h]
    exact hwf
  | cons op rest ih =>
    intro s s' hwf h
    rw [runMap_cons] at h
    cases hst : mapStep s op with
    | none => rw [hst] at h; cases h
    | some s1 =>
      rw [hst] at h
      exact ih s1 s' (mapStep_WF hwf hst) h

/-! ## Registry lemmas -/

theorem findOrder_eq_none_iff (os : List (Nat × OrderDetails)) (id : Nat) :
    findOrder os id = none ↔ ∀ e ∈ os, e.1 ≠ id := by
  unfold findOrder
  rw [Option.map_eq_none']
  rw [List.find?_eq_none]
  constructor
  · intro h e he heq
    exact absurd (by simpa using heq) (h e he)
  · intro h e he
    simpa using h e he

theorem findOrder_some_mem {os : List (Nat × OrderDetails)} {id : Nat} {d : OrderDetails}
    (h : findOrder os id = some d) : (id, d) ∈ os := by
  unfold findOrder at h
  cases hf : os.find? (fun e => e.1 == id) with
  | none => rw [hf] at h; cases h
  | some e =>
    rw [hf] at h
    simp only [Option.map_some', Option.some_inj] at h
    have hid : e.1 = id := by simpa using List.find?_some hf
    have hm := List.mem_of_find?_eq_some hf
    have : e = (id, d) := by
      cases e
      simp only [Prod.mk.injEq]
      exact ⟨hid, h⟩
    rw [← this]
    exact hm

theorem mem_findOrder {os : List (Nat × OrderDetails)} (hnd : (os.map (·.1)).Nodup)
    {id : Nat} {d : OrderDetails} (hm : (id, d) ∈ os) : findOrder os id = some d := by
  induction os with
  | nil => cases hm
  | cons e rest ih =>
    have hnd2 : (rest.map (·.1)).Nodup := by
      simp only [List.map_cons, List.nodup_cons] at hnd
      exact hnd.2
    rcases List.mem_cons.mp hm with rfl | hm2
    · simp [findOrder, List.find?_cons]
    · have hne : e.1 ≠ id := by
        intro he
        simp only [List.map_cons, List.nodup_cons] at hnd
        exact hnd.1 (List.mem_map.mpr ⟨(id, d), hm2, by simp [he]⟩)
      have hb : (e.1 == id) = false := by simpa using hne
      simp only [findOrder, List.find?_cons, hb]
      exact ih hnd2 hm2

/-! ## Aggregated-volume bookkeeping -/

theorem aggOf_cons (e : Nat × OrderDetails) (os : List (Nat × OrderDetails)) (sd : Side)
    (p : Int) :
    aggOf (e :: os) sd p =
      (if e.2.side = sd ∧ e.2.price = p then e.2.originalVolume else 0) + aggOf os sd p := by
  unfold aggOf
  rw [List.filter_cons]
  by_cases h : e.2.side = sd ∧ e.2.price = p
  · have hb : (e.2.side == sd && e.2.price == p) = true := by
      simp [h.1, h.2]
    simp [hb, h]
  · have hb : (e.2.side == sd && e.2.price == p) = false := by
      rcases not_and_or.mp h with h1 | h1 <;> simp [h1] <;> by_cases h2 : e.2.side = sd <;>
        simp [h2] <;> intro hcc <;> exact absurd hcc (by tauto)
    simp [hb, h]

theorem aggOf_nonneg {os : List (Nat × OrderDetails)} (hpos : ∀ e ∈ os, 0 < e.2.originalVolume)
    (sd : Side) (p : Int) : 0 ≤ aggOf os sd p := by
  induction os with
  | nil => simp [aggOf]
  | cons e rest ih =>
    rw [aggOf_cons]
    have h1 := hpos e (List.mem_cons_self _ _)
    have h2 := ih (fun x hx => hpos x (List.mem_cons_of_mem _ hx))
    by_cases h : e.2.side = sd ∧ e.2.price = p <;> simp [h] <;> omega

theorem aggOf_no_orders {os : List (Nat × OrderDetails)} {sd : Side} {p : Int}
    (h : ∀ e ∈ os, ¬(e.2.side = sd ∧ e.2.price = p)) : aggOf os sd p = 0 := by
  induction os with
  | nil => simp [aggOf]
  | cons e rest ih =>
    rw [aggOf_cons]
    have h1 := h e (List.mem_cons_self _ _)
    have h2 := ih (fun x hx => h x (List.mem_cons_of_mem _ hx))
    simp [h1, h2]

theorem aggOf_zero_no_orders {os : List (Nat × OrderDetails)}
    (hpos : ∀ e ∈ os, 0 < e.2.originalVolume) {sd : Side} {p : Int}
    (h : aggOf os sd p = 0) : ∀ e ∈ os, ¬(e.2.side = sd ∧ e.2.price = p) := by
  induction os with
  | nil => intro e he; cases he
  | cons e0 rest ih =>
    rw [aggOf_cons] at h
    have hrest0 : 0 ≤ aggOf rest sd p :=
      aggOf_nonneg (fun x hx => hpos x (List.mem_cons_of_mem _ hx)) sd p
    have h0 := hpos e0 (List.mem_cons_self _ _)
    by_cases hm : e0.2.side = sd ∧ e0.2.price = p
    · rw [if_pos hm] at h
      omega
    · rw [if_neg hm, zero_add] at h
      intro e he
      rcases List.mem_cons.mp he with rfl | he2
      · exact hm
      · exact ih (fun x hx => hpos x (List.mem_cons_of_mem _ hx)) h e he2

theorem eraseOrder_cons (e : Nat × OrderDetails) (os : List (Nat × OrderDetails)) (id : Nat) :
    eraseOrder (e :: os) id =
      if e.1 = id then eraseOrder os id else e :: eraseOrder os id := by
  unfold eraseOrder
  rw [List.filter_cons]
  by_cases h : e.1 = id <;> simp [h]

theorem setOrderVolume_cons (e : Nat × OrderDetails) (os : List (Nat × OrderDetails))
    (id : Nat) (v : Int) :
    setOrderVolume (e :: os) id v =
      (if e.1 = id then (e.1, ⟨e.2.side, e.2.price, v⟩) else e) :: setOrderVolume os id v := by
  unfold setOrderVolume
  rw [List.map_cons]
  by_cases h : e.1 = id <;> simp [h]

theorem eraseOrder_of_not_mem (os : List (Nat × OrderDetails)) (id : Nat)
    (h : ∀ e ∈ os, e.1 ≠ id) : eraseOrder os id = os := by
  apply List.filter_eq_self.mpr
  intro e he
  simpa using h e he

theorem setOrderVolume_of_not_mem (os : List (Nat × OrderDetails)) (id : Nat) (v : Int)
    (h : ∀ e ∈ os, e.1 ≠ id) : setOrderVolume os id v = os := by
  induction os with
  | nil => rfl
  | cons e rest ih =>
    rw [setOrderVolume_cons, if_neg (h e (List.mem_cons_self _ _)),
      ih (fun x hx => h x (List.mem_cons_of_mem _ hx))]

theorem nodup_not_mem_rest {e : Nat × OrderDetails} {rest : List (Nat × OrderDetails)}
    (hnd : ((e :: rest).map (·.1)).Nodup) : ∀ e2 ∈ rest, e2.1 ≠ e.1 := by
  intro e2 he2 he
  simp only [List.map_cons, List.nodup_cons] at hnd
  exact hnd.1 (List.mem_map.mpr ⟨e2, he2, by simp [he]⟩)

theorem aggOf_erase {os : List (Nat × OrderDetails)} (hnd : (os.map (·.1)).Nodup)
    {id : Nat} {d : OrderDetails} (hm : (id, d) ∈ os) (sd : Side) (p : Int) :
    aggOf os sd p =
      (if d.side = sd ∧ d.price = p then d.originalVolume else 0) +
        aggOf (eraseOrder os id) sd p := by
  induction os with
  | nil => cases hm
  | cons e rest ih =>
    have hnd2 : (rest.map (·.1)).Nodup := by
      simp only [List.map_cons, List.nodup_cons] at hnd
      exact hnd.2
    rcases List.mem_cons.mp hm with rfl | hm2
    · have hrest : eraseOrder rest id = rest :=
        eraseOrder_of_not_mem rest id (nodup_not_mem_rest hnd)
      rw [eraseOrder_cons, if_pos rfl, hrest, aggOf_cons]
    · have he : e.1 ≠ id := by
        intro heq
        exact (nodup_not_mem_rest hnd) (id, d) hm2 (by simp [heq])
      rw [eraseOrder_cons, if_neg he, aggOf_cons, aggOf_cons, ih hnd2 hm2]
      omega

theorem setOrderVolume_keys (os : List (Nat × OrderDetails)) (id : Nat) (v : Int) :
    (setOrderVolume os id v).map (·.1) = os.map (·.1) := by
  induction os with
  | nil => rfl
  | cons e rest ih =>
    rw [setOrderVolume_cons, List.map_cons, List.map_cons, ih]
    by_cases h : e.1 = id <;> simp [h]

theorem aggOf_setVol {os : List (Nat × OrderDetails)} (hnd : (os.map (·.1)).Nodup)
    {id : Nat} {d : OrderDetails} (hm : (id, d) ∈ os) (nv : Int) (sd : Side) (p : Int) :
    aggOf (setOrderVolume os id nv) sd p =
      (if d.side = sd ∧ d.price = p then nv else 0) + aggOf (eraseOrder os id) sd p := by
  induction os with
  | nil => cases hm
  | cons e rest ih =>
    have hnd2 : (rest.map (·.1)).Nodup := by
      simp only [List.map_cons, List.nodup_cons] at hnd
      exact hnd.2
    rcases List.mem_cons.mp hm with rfl | hm2
    · have hfresh := nodup_not_mem_rest hnd
      rw [setOrderVolume_cons, if_pos rfl, eraseOrder_cons, if_pos rfl,
        eraseOrder_of_not_mem rest id hfresh,
        setOrderVolume_of_not_mem rest id nv hfresh, aggOf_cons]
    · have he : e.1 ≠ id := by
        intro heq
        exact (nodup_not_mem_rest hnd) (id, d) hm2 (by simp [heq])
      rw [setOrderVolume_cons, if_neg he, eraseOrder_cons, if_neg he, aggOf_cons, aggOf_cons,
        ih hnd2 hm2]
      omega

/-! ## Helpers for the consistency invariant -/

theorem vecSearch_bid (l : List PriceLevel) (p v : Int) :
    addLevelsAt (stratVector.search stratVector.bidComp l p) l p v = insertLevel gtC l p v :=
  addLevelsAt_firstNotBefore gtC l p v

theorem vecSearch_ask (l : List PriceLevel) (p v : Int) :
    addLevelsAt (stratVector.search stratVector.askComp l p) l p v = insertLevel ltC l p v :=
  addLevelsAt_firstNotBefore ltC l p v

theorem vecLocate_bid {l : List PriceLevel} (hs : SortedBy gtC l) (p diff : Int) :
    modLevels (stratVector.locate stratVector.bidComp) l p diff =
      modLevels findPriceIdx l p diff :=
  modLevels_locate_eq stratVector_ok (show CompOk stratVector.bidComp from gtC_ok) hs p diff

theorem vecLocate_ask {l : List PriceLevel} (hs : SortedBy ltC l) (p diff : Int) :
    modLevels (stratVector.locate stratVector.askComp) l p diff =
      modLevels findPriceIdx l p diff :=
  modLevels_locate_eq stratVector_ok (show CompOk stratVector.askComp from ltC_ok) hs p diff

theorem vecDelLocate_bid {l : List PriceLevel} (hs : SortedBy gtC l) (p vol : Int) :
    delLevels (stratVector.locate stratVector.bidComp) l p vol =
      delLevels findPriceIdx l p vol :=
  delLevels_locate_eq stratVector_ok (show CompOk stratVector.bidComp from gtC_ok) hs p vol

theorem vecDelLocate_ask {l : List PriceLevel} (hs : SortedBy ltC l) (p vol : Int) :
    delLevels (stratVector.locate stratVector.askComp) l p vol =
      delLevels findPriceIdx l p vol :=
  delLevels_locate_eq stratVector_ok (show CompOk stratVector.askComp from ltC_ok) hs p vol

theorem mem_pricesOf_levelVolAt {l : List PriceLevel} {p : Int} (h : p ∈ pricesOf l) :
    ∃ V, levelVolAt l p = some V := by
  cases hv : levelVolAt l p with
  | none =>
    rw [levelVolAt_none_iff, findPriceIdx_none_iff] at hv
    exact absurd h hv
  | some V => exact ⟨V, rfl⟩

theorem levelVolAt_mem_prices {l : List PriceLevel} {p V : Int}
    (h : levelVolAt l p = some V) : p ∈ pricesOf l :=
  List.mem_map.mpr ⟨⟨p, V⟩, levelVolAt_some_mem l p V h, rfl⟩

theorem setVolAt_mem {l : List PriceLevel} {p w : Int} {x : PriceLevel}
    (h : x ∈ setVolAt l p w) :
    (x ∈ l ∧ x.price ≠ p) ∨ ∃ pl ∈ l, pl.price = p ∧ x = ⟨p, w⟩ := by
  rcases List.mem_map.mp h with ⟨pl, hpl, hx⟩
  by_cases hp : pl.price = p
  · right
    refine ⟨pl, hpl, hp, ?_⟩
    rw [← hx]
    simp [hp]
  · left
    rw [← hx]
    simp only [hp, if_false]
    exact ⟨hpl, hp⟩

theorem dropPrice_mem {l : List PriceLevel} {p : Int} {x : PriceLevel} :
    x ∈ dropPrice l p ↔ x ∈ l ∧ x.price ≠ p := by
  unfold dropPrice
  rw [List.mem_filter]
  constructor
  · intro ⟨h1, h2⟩; exact ⟨h1, by simpa using h2⟩
  · intro ⟨h1, h2⟩; exact ⟨h1, by simpa using h2⟩

theorem pricesOf_dropPrice_mem {l : List PriceLevel} {p q : Int} :
    q ∈ pricesOf (dropPrice l p) ↔ q ∈ pricesOf l ∧ q ≠ p := by
  unfold pricesOf
  constructor
  · intro h
    rcases List.mem_map.mp h with ⟨x, hx, rfl⟩
    rcases dropPrice_mem.mp hx with ⟨h1, h2⟩
    exact ⟨List.mem_map.mpr ⟨x, h1, rfl⟩, h2⟩
  · intro ⟨h1, h2⟩
    rcases List.mem_map.mp h1 with ⟨x, hx, rfl⟩
    exact List.mem_map.mpr ⟨x, dropPrice_mem.mpr ⟨hx, h2⟩, rfl⟩

theorem setOrderVolume_mem {os : List (Nat × OrderDetails)} {id : Nat} {nv : Int}
    {x : Nat × OrderDetails} (h : x ∈ setOrderVolume os id nv) :
    ∃ e ∈ os, x = e ∨ x = (e.1, ⟨e.2.side, e.2.price, nv⟩) := by
  rcases List.mem_map.mp h with ⟨e, he, hx⟩
  by_cases hid : e.1 = id
  · refine ⟨e, he, Or.inr ?_⟩
    rw [← hx]
    simp [hid]
  · refine ⟨e, he, Or.inl ?_⟩
    rw [← hx]
    have hb : (e.1 == id) = false := by simpa using hid
    simp [hb]

theorem eraseOrder_mem {os : List (Nat × OrderDetails)} {id : Nat} {x : Nat × OrderDetails} :
    x ∈ eraseOrder os id ↔ x ∈ os ∧ x.1 ≠ id := by
  unfold eraseOrder
  rw [List.mem_filter]
  constructor
  · intro ⟨h1, h2⟩; exact ⟨h1, by simpa using h2⟩
  · intro ⟨h1, h2⟩; exact ⟨h1, by simpa using h2⟩

theorem eraseOrder_keys_nodup {os : List (Nat × OrderDetails)}
    (hnd : (os.map (·.1)).Nodup) (id : Nat) : ((eraseOrder os id).map (·.1)).Nodup := by
  have hsub : List.Sublist (eraseOrder os id) os := List.filter_sublist _
  exact hnd.sublist (hsub.map _)

/-! ## The consistency invariant is preserved on positive-volume operations,
and the map book takes exactly the reference transitions there -/

theorem posStep {s : Book} (hinv : PosInv s) {op : Op} (hop : posOp op = true) :
    PosInv (stratVector.step s op) ∧ mapStep s op = some (stratVector.step s op) := by
  obtain ⟨hw, hnd, ho, hvb, hva⟩ := hinv
  have hwb : SortedBy gtC s.bidLevels := hw.1
  have hwa : SortedBy ltC s.askLevels := hw.2
  cases op with
  | add id side p v =>
    have hv : 0 < v := by simpa [posOp] using hop
    cases hfo : findOrder s.orders id with
    | some d =>
      simp only [Strategy.step, mapStep, hfo]
      exact ⟨⟨hw, hnd, ho, hvb, hva⟩, trivial⟩
    | none =>
      have hfresh : ∀ e ∈ s.orders, e.1 ≠ id := (findOrder_eq_none_iff _ _).mp hfo
      have hidf : id ∉ s.orders.map (·.1) := by
        intro hm
        rcases List.mem_map.mp hm with ⟨e, he, hei⟩
        exact hfresh e he hei
      cases side with
      | Bid =>
        simp only [Strategy.step, mapStep, hfo]
        rw [vecSearch_bid, mapInsertVolume_eq_insertLevel gtC gtC_ok.irrefl]
        refine ⟨?_, rfl⟩
        by_cases hpm : p ∈ pricesOf s.bidLevels
        · rcases mem_pricesOf_levelVolAt hpm with ⟨V, hV⟩
          rw [insertLevel_present gtC_ok hwb p v V hV]
          have hlm : (⟨p, V⟩ : PriceLevel) ∈ s.bidLevels := levelVolAt_some_mem _ _ _ hV
          have hVagg : V = aggOf s.orders .Bid p := hvb ⟨p, V⟩ hlm
          refine ⟨⟨setVolAt_sorted hwb p (V + v), hwa⟩, ?_, ?_, ?_, ?_⟩
          · rw [List.map_cons]
            exact List.Nodup.cons hidf hnd
          · intro e he
            rcases List.mem_cons.mp he with rfl | he2
            · refine ⟨hv, ?_⟩
              show p ∈ pricesOf (setVolAt s.bidLevels p (V + v))
              rw [pricesOf_setVolAt]
              exact hpm
            · rcases ho e he2 with ⟨hev, hep⟩
              refine ⟨hev, ?_⟩
              cases hes : e.2.side with
              | Bid =>
                rw [hes] at hep
                show e.2.price ∈ pricesOf (setVolAt s.bidLevels p (V + v))
                rw [pricesOf_setVolAt]
                exact hep
              | Ask =>
                rw [hes] at hep
                exact hep
          · intro pl' hpl'
            rcases setVolAt_mem hpl' with ⟨hmem2, hne⟩ | ⟨pl0, hpl0, hp0, rfl⟩
            · rw [aggOf_cons, if_neg (fun hcc => hne hcc.2.symm), zero_add]
              exact hvb pl' hmem2
            · rw [aggOf_cons, if_pos ⟨rfl, rfl⟩]
              show V + v = v + aggOf s.orders .Bid p
              omega
          · intro pl hpl
            rw [aggOf_cons, if_neg (fun hcc => by cases hcc.1), zero_add]
            exact hva pl hpl
        · have hperm := insertLevel_perm_absent gtC s.bidLevels p v hpm
          refine ⟨⟨insertLevel_sorted gtC_ok hwb p v, hwa⟩, ?_, ?_, ?_, ?_⟩
          · rw [List.map_cons]
            exact List.Nodup.cons hidf hnd
          · intro e he
            rcases List.mem_cons.mp he with rfl | he2
            · refine ⟨hv, ?_⟩
              show p ∈ pricesOf (insertLevel gtC s.bidLevels p v)
              refine (hperm.map (fun x => x.price)).mem_iff.mpr ?_
              simp [pricesOf]
            · rcases ho e he2 with ⟨hev, hep⟩
              refine ⟨hev, ?_⟩
              cases hes : e.2.side with
              | Bid =>
                rw [hes] at hep
                show e.2.price ∈ pricesOf (insertLevel gtC s.bidLevels p v)
                refine (hperm.map (fun x => x.price)).mem_iff.mpr ?_
                simp only [pricesOf, List.map_cons, List.mem_cons]
                right
                exact hep
              | Ask =>
                rw [hes] at hep
                exact hep
          · intro pl' hpl'
            rcases List.mem_cons.mp (hperm.mem_iff.mp hpl') with rfl | hmem2
            · rw [aggOf_cons, if_pos ⟨rfl, rfl⟩]
              have hz : aggOf s.orders .Bid p = 0 := by
                apply aggOf_no_orders
                intro e he hcc
                rcases ho e he with ⟨_, hep⟩
                rw [hcc.1] at hep
                exact hpm (hcc.2 ▸ hep)
              show v = v + aggOf s.orders .Bid p
              omega
            · have hne : pl'.price ≠ p := fun he =>
                hpm (he ▸ List.mem_map.mpr ⟨pl', hmem2, rfl⟩)
              rw [aggOf_cons, if_neg (fun hcc => hne hcc.2.symm), zero_add]
              exact hvb pl' hmem2
          · intro pl hpl
            rw [aggOf_cons, if_neg (fun hcc => by cases hcc.1), zero_add]
            exact hva pl hpl
      | Ask =>
        simp only [Strategy.step, mapStep, hfo]
        rw [vecSearch_ask, mapInsertVolume_eq_insertLevel ltC ltC_ok.irrefl]
        refine ⟨?_, rfl⟩
        by_cases hpm : p ∈ pricesOf s.askLevels
        · rcases mem_pricesOf_levelVolAt hpm with ⟨V, hV⟩
          rw [insertLevel_present ltC_ok hwa p v V hV]
          have hlm : (⟨p, V⟩ : PriceLevel) ∈ s.askLevels := levelVolAt_some_mem _ _ _ hV
          have hVagg : V = aggOf s.orders .Ask p := hva ⟨p, V⟩ hlm
          refine ⟨⟨hwb, setVolAt_sorted hwa p (V + v)⟩, ?_, ?_, ?_, ?_⟩
          · rw [List.map_cons]
            exact List.Nodup.cons hidf hnd
          · intro e he
            rcases List.mem_cons.mp he with rfl | he2
            · refine ⟨hv, ?_⟩
              show p ∈ pricesOf (setVolAt s.askLevels p (V + v))
              rw [pricesOf_setVolAt]
              exact hpm
            · rcases ho e he2 with ⟨hev, hep⟩
              refine ⟨hev, ?_⟩
              cases hes : e.2.side with
              | Ask =>
                rw [hes] at hep
                show e.2.price ∈ pricesOf (setVolAt s.askLevels p (V + v))
                rw [pricesOf_setVolAt]
                exact hep
              | Bid =>
                rw [hes] at hep
                exact hep
          · intro pl hpl
            rw [aggOf_cons, if_neg (fun hcc => by cases hcc.1), zero_add]
            exact hvb pl hpl
          · intro pl' hpl'
            rcases setVolAt_mem hpl' with ⟨hmem2, hne⟩ | ⟨pl0, hpl0, hp0, rfl⟩
            · rw [aggOf_cons, if_neg (fun hcc => hne hcc.2.symm), zero_add]
              exact hva pl' hmem2
            · rw [aggOf_cons, if_pos ⟨rfl, rfl⟩]
              show V + v = v + aggOf s.orders .Ask p
              omega
        · have hperm := insertLevel_perm_absent ltC s.askLevels p v hpm
          refine ⟨⟨hwb, insertLevel_sorted ltC_ok hwa p v⟩, ?_, ?_, ?_, ?_⟩
          · rw [List.map_cons]
            exact List.Nodup.cons hidf hnd
          · intro e he
            rcases List.mem_cons.mp he with rfl | he2
            · refine ⟨hv, ?_⟩
              show p ∈ pricesOf (insertLevel ltC s.askLevels p v)
              refine (hperm.map (fun x => x.price)).mem_iff.mpr ?_
              simp [pricesOf]
            · rcases ho e he2 with ⟨hev, hep⟩
              refine ⟨hev, ?_⟩
              cases hes : e.2.side with
              | Ask =>
                rw [hes] at hep
                show e.2.price ∈ pricesOf (insertLevel ltC s.askLevels p v)
                refine (hperm.map (fun x => x.price)).mem_iff.mpr ?_
                simp only [pricesOf, List.map_cons, List.mem_cons]
                right
                exact hep
              | Bid =>
                rw [hes] at hep
                exact hep
          · intro pl hpl
            rw [aggOf_cons, if_neg (fun hcc => by cases hcc.1), zero_add]
            exact hvb pl hpl
          · intro pl' hpl'
            rcases List.mem_cons.mp (hperm.mem_iff.mp hpl') with rfl | hmem2
            · rw [aggOf_cons, if_pos ⟨rfl, rfl⟩]
              have hz : aggOf s.orders .Ask p = 0 := by
                apply aggOf_no_orders
                intro e he hcc
                rcases ho e he with ⟨_, hep⟩
                rw [hcc.1] at hep
                exact hpm (hcc.2 ▸ hep)
              show v = v + aggOf s.orders .Ask p
              omega
            · have hne : pl'.price ≠ p := fun he =>
                hpm (he ▸ List.mem_map.mpr ⟨pl', hmem2, rfl⟩)
              rw [aggOf_cons, if_neg (fun hcc => hne hcc.2.symm), zero_add]
              exact hva pl' hmem2
  | modify id nv =>
    have hnv : 0 < nv := by simpa [posOp] using hop
    cases hfo : findOrder s.orders id with
    | none =>
      simp only [Strategy.step, mapStep, hfo]
      exact ⟨⟨hw, hnd, ho, hvb, hva⟩, trivial⟩
    | some d =>
      have hmem := findOrder_some_mem hfo
      rcases ho (id, d) hmem with ⟨hdv, hdp⟩
      have herasepos : ∀ e ∈ eraseOrder s.orders id, 0 < e.2.originalVolume :=
        fun e he => (ho e (eraseOrder_mem.mp he).1).1
      cases hside : d.side with
      | Bid =>
        have hdp2 : d.price ∈ pricesOf s.bidLevels := by rw [hside] at hdp; exact hdp
        rcases mem_pricesOf_levelVolAt hdp2 with ⟨V, hV⟩
        have hlm := levelVolAt_some_mem _ _ _ hV
        have hVagg : V = aggOf s.orders .Bid d.price := hvb _ hlm
        have hdec := aggOf_erase hnd hmem .Bid d.price
        rw [if_pos ⟨hside, rfl⟩] at hdec
        have hothers : 0 ≤ aggOf (eraseOrder s.orders id) .Bid d.price :=
          aggOf_nonneg herasepos _ _
        have hkeep : ¬(V + (nv - d.originalVolume) ≤ 0) := by omega
        have hcanon : modLevels findPriceIdx s.bidLevels d.price (nv - d.originalVolume) =
            some (setVolAt s.bidLevels d.price (V + (nv - d.originalVolume)), false) := by
          rw [modLevels_canon _ _ _ (sorted_nodupPrices gtC_ok hwb), hV]
          exact if_neg hkeep
        simp only [Strategy.step, mapStep, hfo, hside]
        rw [vecLocate_bid hwb, hcanon]
        refine ⟨?_, rfl⟩
        refine ⟨⟨setVolAt_sorted hwb _ _, hwa⟩, ?_, ?_, ?_, ?_⟩
        · rw [setOrderVolume_keys]
          exact hnd
        · intro e he
          rcases setOrderVolume_mem he with ⟨e0, he0, heq⟩
          rcases ho e0 he0 with ⟨hv0, hp0⟩
          have hside0 : e.2.side = e0.2.side := by rcases heq with rfl | rfl <;> rfl
          have hprice0 : e.2.price = e0.2.price := by rcases heq with rfl | rfl <;> rfl
          have hev : 0 < e.2.originalVolume := by
            rcases heq with rfl | rfl
            · exact hv0
            · exact hnv
          refine ⟨hev, ?_⟩
          rw [hside0, hprice0]
          cases hes : e0.2.side with
          | Bid =>
            rw [hes] at hp0
            show e0.2.price ∈ pricesOf (setVolAt s.bidLevels d.price (V + (nv - d.originalVolume)))
            rw [pricesOf_setVolAt]
            exact hp0
          | Ask =>
            rw [hes] at hp0
            exact hp0
        · intro pl' hpl'
          rcases setVolAt_mem hpl' with ⟨hmem2, hne⟩ | ⟨pl0, hpl0, hp0, rfl⟩
          · have hcond : ¬(d.side = Side.Bid ∧ d.price = pl'.price) :=
              fun hcc => hne hcc.2.symm
            have h1 : aggOf s.orders .Bid pl'.price =
                aggOf (eraseOrder s.orders id) .Bid pl'.price := by
              rw [aggOf_erase hnd hmem .Bid pl'.price, if_neg hcond, zero_add]
            rw [aggOf_setVol hnd hmem nv, if_neg hcond, zero_add, ← h1]
            exact hvb pl' hmem2
          · rw [aggOf_setVol hnd hmem nv, if_pos ⟨hside, rfl⟩]
            show V + (nv - d.originalVolume) =
              nv + aggOf (eraseOrder s.orders id) .Bid d.price
            omega
        · intro pl hpl
          have hcond : ¬(d.side = Side.Ask ∧ d.price = pl.price) := by
            intro hcc
            rw [hside] at hcc
            cases hcc.1
          have h1 : aggOf s.orders .Ask pl.price =
              aggOf (eraseOrder s.orders id) .Ask pl.price := by
            rw [aggOf_erase hnd hmem .Ask pl.price, if_neg hcond, zero_add]
          rw [aggOf_setVol hnd hmem nv, if_neg hcond, zero_add, ← h1]
          exact hva pl hpl
      | Ask =>
        have hdp2 : d.price ∈ pricesOf s.askLevels := by rw [hside] at hdp; exact hdp
        rcases mem_pricesOf_levelVolAt hdp2 with ⟨V, hV⟩
        have hlm := levelVolAt_some_mem _ _ _ hV
        have hVagg : V = aggOf s.orders .Ask d.price := hva _ hlm
        have hdec := aggOf_erase hnd hmem .Ask d.price
        rw [if_pos ⟨hside, rfl⟩] at hdec
        have hothers : 0 ≤ aggOf (eraseOrder s.orders id) .Ask d.price :=
          aggOf_nonneg herasepos _ _
        have hkeep : ¬(V + (nv - d.originalVolume) ≤ 0) := by omega
        have hcanon : modLevels findPriceIdx s.askLevels d.price (nv - d.originalVolume) =
            some (setVolAt s.askLevels d.price (V + (nv - d.originalVolume)), false) := by
          rw [modLevels_canon _ _ _ (sorted_nodupPrices ltC_ok hwa), hV]
          exact if_neg hkeep
        simp only [Strategy.step, mapStep, hfo, hside]
        rw [vecLocate_ask hwa, hcanon]
        refine ⟨?_, rfl⟩
        refine ⟨⟨hwb, setVolAt_sorted hwa _ _⟩, ?_, ?_, ?_, ?_⟩
        · rw [setOrderVolume_keys]
          exact hnd
        · intro e he
          rcases setOrderVolume_mem he with ⟨e0, he0, heq⟩
          rcases ho e0 he0 with ⟨hv0, hp0⟩
          have hside0 : e.2.side = e0.2.side := by rcases heq with rfl | rfl <;> rfl
          have hprice0 : e.2.price = e0.2.price := by rcases heq with rfl | rfl <;> rfl
          have hev : 0 < e.2.originalVolume := by
            rcases heq with rfl | rfl
            · exact hv0
            · exact hnv
          refine ⟨hev, ?_⟩
          rw [hside0, hprice0]
          cases hes : e0.2.side with
          | Ask =>
            rw [hes] at hp0
            show e0.2.price ∈ pricesOf (setVolAt s.askLevels d.price (V + (nv - d.originalVolume)))
            rw [pricesOf_setVolAt]
            exact hp0
          | Bid =>
            rw [hes] at hp0
            exact hp0
        · intro pl hpl
          have hcond : ¬(d.side = Side.Bid ∧ d.price = pl.price) := by
            intro hcc
            rw [hside] at hcc
            cases hcc.1
          have h1 : aggOf s.orders .Bid pl.price =
              aggOf (eraseOrder s.orders id) .Bid pl.price := by
            rw [aggOf_erase hnd hmem .Bid pl.price, if_neg hcond, zero_add]
          rw [aggOf_setVol hnd hmem nv, if_neg hcond, zero_add, ← h1]
          exact hvb pl hpl
        · intro pl' hpl'
          rcases setVolAt_mem hpl' with ⟨hmem2, hne⟩ | ⟨pl0, hpl0, hp0, rfl⟩
          · have hcond : ¬(d.side = Side.Ask ∧ d.price = pl'.price) :=
              fun hcc => hne hcc.2.symm
            have h1 : aggOf s.orders .Ask pl'.price =
                aggOf (eraseOrder s.orders id) .Ask pl'.price := by
              rw [aggOf_erase hnd hmem .Ask pl'.price, if_neg hcond, zero_add]
            rw [aggOf_setVol hnd hmem nv, if_neg hcond, zero_add, ← h1]
            exact hva pl' hmem2
          · rw [aggOf_setVol hnd hmem nv, if_pos ⟨hside, rfl⟩]
            show V + (nv - d.originalVolume) =
              nv + aggOf (eraseOrder s.orders id) .Ask d.price
            omega
  | delete id =>
    cases hfo : findOrder s.orders id with
    | none =>
      simp only [Strategy.step, mapStep, hfo]
      exact ⟨⟨hw, hnd, ho, hvb, hva⟩, trivial⟩
    | some d =>
      have hmem := findOrder_some_mem hfo
      rcases ho (id, d) hmem with ⟨hdv, hdp⟩
      have herasepos : ∀ e ∈ eraseOrder s.orders id, 0 < e.2.originalVolume :=
        fun e he => (ho e (eraseOrder_mem.mp he).1).1
      cases hside : d.side with
      | Bid =>
        have hdp2 : d.price ∈ pricesOf s.bidLevels := by rw [hside] at hdp; exact hdp
        rcases mem_pricesOf_levelVolAt hdp2 with ⟨V, hV⟩
        have hlm := levelVolAt_some_mem _ _ _ hV
        have hVagg : V = aggOf s.orders .Bid d.price := hvb _ hlm
        have hdec := aggOf_erase hnd hmem .Bid d.price
        rw [if_pos ⟨hside, rfl⟩] at hdec
        have hothers : 0 ≤ aggOf (eraseOrder s.orders id) .Bid d.price :=
          aggOf_nonneg herasepos _ _
        have hfp : ∃ i, findPriceIdx s.bidLevels d.price = some i := by
          cases hfpc : findPriceIdx s.bidLevels d.price with
          | none =>
            rw [← levelVolAt_none_iff] at hfpc
            rw [hfpc] at hV
            cases hV
          | some i => exact ⟨i, rfl⟩
        rcases hfp with ⟨i, hfp⟩
        simp only [Strategy.step, mapStep, hfo, hside]
        rw [hfp, vecDelLocate_bid hwb]
        by_cases hz : V - d.originalVolume ≤ 0
        · have hcanon : delLevels findPriceIdx s.bidLevels d.price d.originalVolume =
              dropPrice s.bidLevels d.price := by
            rw [delLevels_canon _ _ _ (sorted_nodupPrices gtC_ok hwb), hV]
            exact if_pos hz
          rw [hcanon]
          have hoth0 : aggOf (eraseOrder s.orders id) .Bid d.price = 0 := by omega
          refine ⟨⟨⟨dropPrice_sorted hwb _, hwa⟩, eraseOrder_keys_nodup hnd id, ?_, ?_, ?_⟩,
            rfl⟩
          · intro e he
            rcases eraseOrder_mem.mp he with ⟨he2, hne⟩
            rcases ho e he2 with ⟨hev, hep⟩
            refine ⟨hev, ?_⟩
            cases hes : e.2.side with
            | Bid =>
              rw [hes] at hep
              show e.2.price ∈ pricesOf (dropPrice s.bidLevels d.price)
              rw [pricesOf_dropPrice_mem]
              refine ⟨hep, ?_⟩
              intro heq
              exact (aggOf_zero_no_orders herasepos hoth0 e he) ⟨hes, heq⟩
            | Ask =>
              rw [hes] at hep
              exact hep
          · intro pl' hpl'
            rcases dropPrice_mem.mp hpl' with ⟨hmem2, hne⟩
            have hcond : ¬(d.side = Side.Bid ∧ d.price = pl'.price) :=
              fun hcc => hne hcc.2.symm
            have h1 : aggOf s.orders .Bid pl'.price =
                aggOf (eraseOrder s.orders id) .Bid pl'.price := by
              rw [aggOf_erase hnd hmem .Bid pl'.price, if_neg hcond, zero_add]
            rw [← h1]
            exact hvb pl' hmem2
          · intro pl hpl
            have hcond : ¬(d.side = Side.Ask ∧ d.price = pl.price) := by
              intro hcc
              rw [hside] at hcc
              cases hcc.1
            have h1 : aggOf s.orders .Ask pl.price =
                aggOf (eraseOrder s.orders id) .Ask pl.price := by
              rw [aggOf_erase hnd hmem .Ask pl.price, if_neg hcond, zero_add]
            rw [← h1]
            exact hva pl hpl
        · have hcanon : delLevels findPriceIdx s.bidLevels d.price d.originalVolume =
              setVolAt s.bidLevels d.price (V - d.originalVolume) := by
            rw [delLevels_canon _ _ _ (sorted_nodupPrices gtC_ok hwb), hV]
            exact if_neg hz
          rw [hcanon]
          refine ⟨⟨⟨setVolAt_sorted hwb _ _, hwa⟩, eraseOrder_keys_nodup hnd id, ?_, ?_, ?_⟩,
            rfl⟩
          · intro e he
            rcases eraseOrder_mem.mp he with ⟨he2, hne⟩
            rcases ho e he2 with ⟨hev, hep⟩
            refine ⟨hev, ?_⟩
            cases hes : e.2.side with
            | Bid =>
              rw [hes] at hep
              show e.2.price ∈ pricesOf (setVolAt s.bidLevels d.price (V - d.originalVolume))
              rw [pricesOf_setVolAt]
              exact hep
            | Ask =>
              rw [hes] at hep
              exact hep
          · intro pl' hpl'
            rcases setVolAt_mem hpl' with ⟨hmem2, hne⟩ | ⟨pl0, hpl0, hp0, rfl⟩
            · have hcond : ¬(d.side = Side.Bid ∧ d.price = pl'.price) :=
                fun hcc => hne hcc.2.symm
              have h1 : aggOf s.orders .Bid pl'.price =
                  aggOf (eraseOrder s.orders id) .Bid pl'.price := by
                rw [aggOf_erase hnd hmem .Bid pl'.price, if_neg hcond, zero_add]
              rw [← h1]
              exact hvb pl' hmem2
            · show V - d.originalVolume = aggOf (eraseOrder s.orders id) .Bid d.price
              omega
          · intro pl hpl
            have hcond : ¬(d.side = Side.Ask ∧ d.price = pl.price) := by
              intro hcc
              rw [hside] at hcc
              cases hcc.1
            have h1 : aggOf s.orders .Ask pl.price =
                aggOf (eraseOrder s.orders id) .Ask pl.price := by
              rw [aggOf_erase hnd hmem .Ask pl.price, if_neg hcond, zero_add]
            rw [← h1]
            exact hva pl hpl
      | Ask =>
        have hdp2 : d.price ∈ pricesOf s.askLevels := by rw [hside] at hdp; exact hdp
        rcases mem_pricesOf_levelVolAt hdp2 with ⟨V, hV⟩
        have hlm := levelVolAt_some_mem _ _ _ hV
        have hVagg : V = aggOf s.orders .Ask d.price := hva _ hlm
        have hdec := aggOf_erase hnd hmem .Ask d.price
        rw [if_pos ⟨hside, rfl⟩] at hdec
        have hothers : 0 ≤ aggOf (eraseOrder s.orders id) .Ask d.price :=
          aggOf_nonneg herasepos _ _
        have hfp : ∃ i, findPriceIdx s.askLevels d.price = some i := by
          cases hfpc : findPriceIdx s.askLevels d.price with
          | none =>
            rw [← levelVolAt_none_iff] at hfpc
            rw [hfpc] at hV
            cases hV
          | some i => exact ⟨i, rfl⟩
        rcases hfp with ⟨i, hfp⟩
        simp only [Strategy.step, mapStep, hfo, hside]
        rw [hfp, vecDelLocate_ask hwa]
        by_cases hz : V - d.originalVolume ≤ 0
        · have hcanon : delLevels findPriceIdx s.askLevels d.price d.originalVolume =
              dropPrice s.askLevels d.price := by
            rw [delLevels_canon _ _ _ (sorted_nodupPrices ltC_ok hwa), hV]
            exact if_pos hz
          rw [hcanon]
          have hoth0 : aggOf (eraseOrder s.orders id) .Ask d.price = 0 := by omega
          refine ⟨⟨⟨hwb, dropPrice_sorted hwa _⟩, eraseOrder_keys_nodup hnd id, ?_, ?_, ?_⟩,
            rfl⟩
          · intro e he
            rcases eraseOrder_mem.mp he with ⟨he2, hne⟩
            rcases ho e he2 with ⟨hev, hep⟩
            refine ⟨hev, ?_⟩
            cases hes : e.2.side with
            | Ask =>
              rw [hes] at hep
              show e.2.price ∈ pricesOf (dropPrice s.askLevels d.price)
              rw [pricesOf_dropPrice_mem]
              refine ⟨hep, ?_⟩
              intro heq
              exact (aggOf_zero_no_orders herasepos hoth0 e he) ⟨hes, heq⟩
            | Bid =>
              rw [hes] at hep
              exact hep
          · intro pl hpl
            have hcond : ¬(d.side = Side.Bid ∧ d.price = pl.price) := by
              intro hcc
              rw [hside] at hcc
              cases hcc.1
            have h1 : aggOf s.orders .Bid pl.price =
                aggOf (eraseOrder s.orders id) .Bid pl.price := by
              rw [aggOf_erase hnd hmem .Bid pl.price, if_neg hcond, zero_add]
            rw [← h1]
            exact hvb pl hpl
          · intro pl' hpl'
            rcases dropPrice_mem.mp hpl' with ⟨hmem2, hne⟩
            have hcond : ¬(d.side = Side.Ask ∧ d.price = pl'.price) :=
              fun hcc => hne hcc.2.symm
            have h1 : aggOf s.orders .Ask pl'.price =
                aggOf (eraseOrder s.orders id) .Ask pl'.price := by
              rw [aggOf_erase hnd hmem .Ask pl'.price, if_neg hcond, zero_add]
            rw [← h1]
            exact hva pl' hmem2
        · have hcanon : delLevels findPriceIdx s.askLevels d.price d.originalVolume =
              setVolAt s.askLevels d.price (V - d.originalVolume) := by
            rw [delLevels_canon _ _ _ (sorted_nodupPrices ltC_ok hwa), hV]
            exact if_neg hz
          rw [hcanon]
          refine ⟨⟨⟨hwb, setVolAt_sorted hwa _ _⟩, eraseOrder_keys_nodup hnd id, ?_, ?_, ?_⟩,
            rfl⟩
          · intro e he
            rcases eraseOrder_mem.mp he with ⟨he2, hne⟩
            rcases ho e he2 with ⟨hev, hep⟩
            refine ⟨hev, ?_⟩
            cases hes : e.2.side with
            | Ask =>
              rw [hes] at hep
              show e.2.price ∈ pricesOf (setVolAt s.askLevels d.price (V - d.originalVolume))
              rw [pricesOf_setVolAt]
              exact hep
            | Bid =>
              rw [hes] at hep
              exact hep
          · intro pl hpl
            have hcond : ¬(d.side = Side.Bid ∧ d.price = pl.price) := by
              intro hcc
              rw [hside] at hcc
              cases hcc.1
            have h1 : aggOf s.orders .Bid pl.price =
                aggOf (eraseOrder s.orders id) .Bid pl.price := by
              rw [aggOf_erase hnd hmem .Bid pl.price, if_neg hcond, zero_add]
            rw [← h1]
            exact hvb pl hpl
          · intro pl' hpl'
            rcases setVolAt_mem hpl' with ⟨hmem2, hne⟩ | ⟨pl0, hpl0, hp0, rfl⟩
            · have hcond : ¬(d.side = Side.Ask ∧ d.price = pl'.price) :=
                fun hcc => hne hcc.2.symm
              have h1 : aggOf s.orders .Ask pl'.price =
                  aggOf (eraseOrder s.orders id) .Ask pl'.price := by
                rw [aggOf_erase hnd hmem .Ask pl'.price, if_neg hcond, zero_add]
              rw [← h1]
              exact hva pl' hmem2
            · show V - d.originalVolume = aggOf (eraseOrder s.orders id) .Ask d.price
              omega

theorem PosInv_empty : PosInv Book.empty := by
  refine ⟨WF_empty _, List.nodup_nil, ?_, ?_, ?_⟩ <;> intro e he <;> cases he

theorem posRunAux (ops : List Op) (hpos : ∀ op ∈ ops, posOp op = true) :
    ∀ s : Book, PosInv s →
      PosInv (runStrat stratVector s ops) ∧ runMap s ops = some (runStrat stratVector s ops) := by
  induction ops with
  | nil =>
    intro s h
    exact ⟨h, rfl⟩
  | cons op rest ih =>
    intro s h
    rcases posStep h (hpos op (List.mem_cons_self _ _)) with ⟨h1, h2⟩
    have hrest := ih (fun o hom => hpos o (List.mem_cons_of_mem _ hom)) (stratVector.step s op) h1
    refine ⟨hrest.1, ?_⟩
    rw [runMap_cons, h2]
    exact hrest.2

theorem posRun (ops : List Op) (hpos : allPos ops) :
    PosInv (vectorRun ops) ∧ mapRun ops = some (vectorRun ops) :=
  posRunAux ops hpos Book.empty PosInv_empty

/-! ## Levels never hold non-positive aggregates (positive add volumes) -/

theorem mem_insertIdx_any {α : Type} {x a : α} {i : Nat} {l : List α}
    (h : x ∈ List.insertIdx i a l) : x = a ∨ x ∈ l := by
  rcases le_or_lt i l.length with hle | hlt
  · exact (List.mem_insertIdx hle).mp h
  · rw [List.insertIdx_of_length_lt l a i hlt] at h
    exact Or.inr h

theorem addLevelsAt_pos {i : Nat} {l : List PriceLevel} {p v : Int}
    (hpos : ∀ x ∈ l, 0 < x.volume) (hv : 0 < v) :
    ∀ x ∈ addLevelsAt i l p v, 0 < x.volume := by
  unfold addLevelsAt
  cases hg : l.get? i with
  | none =>
    intro x hx
    rcases mem_insertIdx_any hx with rfl | hx2
    · exact hv
    · exact hpos x hx2
  | some pl =>
    have hplm : pl ∈ l := List.get?_mem hg
    by_cases hp : pl.price = p
    · simp only [hp, if_true]
      intro x hx
      rcases List.mem_or_eq_of_mem_set hx with hx2 | rfl
      · exact hpos x hx2
      · have := hpos pl hplm
        show 0 < pl.volume + v
        omega
    · simp only [hp, if_false]
      intro x hx
      rcases mem_insertIdx_any hx with rfl | hx2
      · exact hv
      · exact hpos x hx2

theorem modLevels_pos {loc : List PriceLevel → Int → Option Nat} {l : List PriceLevel}
    {p diff : Int} {l2 : List PriceLevel} {b : Bool}
    (h : modLevels loc l p diff = some (l2, b)) (hpos : ∀ x ∈ l, 0 < x.volume) :
    ∀ x ∈ l2, 0 < x.volume := by
  unfold modLevels at h
  cases hloc : loc l p with
  | none => rw [hloc] at h; cases h
  | some i =>
    rw [hloc] at h
    replace h : (match l.get? i with
        | none => none
        | some pl =>
          if pl.volume + diff ≤ 0 then some (l.eraseIdx i, true)
          else some (l.set i ⟨pl.price, pl.volume + diff⟩, false)) = some (l2, b) := h
    cases hg : l.get? i with
    | none => rw [hg] at h; cases h
    | some pl =>
      rw [hg] at h
      replace h : (if pl.volume + diff ≤ 0 then some (l.eraseIdx i, true)
          else some (l.set i (⟨pl.price, pl.volume + diff⟩ : PriceLevel), false)) =
            some (l2, b) := h
      by_cases hvv : pl.volume + diff ≤ 0
      · rw [if_pos hvv] at h
        simp only [Option.some_inj, Prod.mk.injEq] at h
        rw [← h.1]
        intro x hx
        exact hpos x (List.mem_of_mem_eraseIdx hx)
      · rw [if_neg hvv] at h
        simp only [Option.some_inj, Prod.mk.injEq] at h
        rw [← h.1]
        intro x hx
        rcases List.mem_or_eq_of_mem_set hx with hx2 | rfl
        · exact hpos x hx2
        · show 0 < pl.volume + diff
          omega

theorem delLevels_pos {loc : List PriceLevel → Int → Option Nat} {l : List PriceLevel}
    {p vol : Int} (hpos : ∀ x ∈ l, 0 < x.volume) :
    ∀ x ∈ delLevels loc l p vol, 0 < x.volume := by
  unfold delLevels
  cases hloc : loc l p with
  | none => exact hpos
  | some i =>
    show ∀ x ∈ ((match l.get? i with
      | none => l
      | some pl =>
        if pl.volume - vol ≤ 0 then l.eraseIdx i
        else l.set i (⟨pl.price, pl.volume - vol⟩ : PriceLevel)) : List PriceLevel),
      0 < x.volume
    cases hg : l.get? i with
    | none => exact hpos
    | some pl =>
      show ∀ x ∈ ((if pl.volume - vol ≤ 0 then l.eraseIdx i
        else l.set i (⟨pl.price, pl.volume - vol⟩ : PriceLevel)) : List PriceLevel),
        0 < x.volume
      by_cases hvv : pl.volume - vol ≤ 0
      · rw [if_pos hvv]
        intro x hx
        exact hpos x (List.mem_of_mem_eraseIdx hx)
      · rw [if_neg hvv]
        intro x hx
        rcases List.mem_or_eq_of_mem_set hx with hx2 | rfl
        · exact hpos x hx2
        · show 0 < pl.volume - vol
          omega

theorem stepPosLevels (K : Strategy) {s : Book} (hpos : posLevels s) {op : Op}
    (hop : posAddOp op = true) : posLevels (K.step s op) := by
  obtain ⟨hb, ha⟩ := hpos
  cases op with
  | add id side p v =>
    have hv : 0 < v := by simpa [posAddOp] using hop
    cases hfo : findOrder s.orders id with
    | some d => simp only [Strategy.step, hfo]; exact ⟨hb, ha⟩
    | none =>
      cases side with
      | Bid =>
        simp only [Strategy.step, hfo]
        exact ⟨addLevelsAt_pos hb hv, ha⟩
      | Ask =>
        simp only [Strategy.step, hfo]
        exact ⟨hb, addLevelsAt_pos ha hv⟩
  | modify id nv =>
    cases hfo : findOrder s.orders id with
    | none => simp only [Strategy.step, hfo]; exact ⟨hb, ha⟩
    | some d =>
      cases hside : d.side with
      | Bid =>
        simp only [Strategy.step, hfo, hside]
        cases hm : modLevels (K.locate K.bidComp) s.bidLevels d.price (nv - d.originalVolume) with
        | none => exact ⟨hb, ha⟩
        | some r =>
          cases r with
          | mk l2 bb =>
            cases bb <;> exact ⟨modLevels_pos hm hb, ha⟩
      | Ask =>
        simp only [Strategy.step, hfo, hside]
        cases hm : modLevels (K.locate K.askComp) s.askLevels d.price (nv - d.originalVolume) with
        | none => exact ⟨hb, ha⟩
        | some r =>
          cases r with
          | mk l2 bb =>
            cases bb <;> exact ⟨hb, modLevels_pos hm ha⟩
  | delete id =>
    cases hfo : findOrder s.orders id with
    | none => simp only [Strategy.step, hfo]; exact ⟨hb, ha⟩
    | some d =>
      cases hside : d.side with
      | Bid =>
        simp only [Strategy.step, hfo, hside]
        exact ⟨delLevels_pos hb, ha⟩
      | Ask =>
        simp only [Strategy.step, hfo, hside]
        exact ⟨hb, delLevels_pos ha⟩

theorem mapInsertVolume_pos {comp : Int → Int → Bool} {l : List PriceLevel} {p v : Int}
    (hpos : ∀ x ∈ l, 0 < x.volume) (hv : 0 < v) :
    ∀ x ∈ mapInsertVolume comp l p v, 0 < x.volume := by
  induction l with
  | nil =>
    intro x hx
    simp only [mapInsertVolume, List.mem_singleton] at hx
    rw [hx]
    exact hv
  | cons pl rest ih =>
    have hplv := hpos pl (List.mem_cons_self _ _)
    have hrest : ∀ x ∈ rest, 0 < x.volume := fun x hx => hpos x (List.mem_cons_of_mem _ hx)
    intro x hx
    by_cases hp : pl.price = p
    · simp only [mapInsertVolume, hp, if_true, List.mem_cons] at hx
      rcases hx with rfl | hx2
      · show 0 < pl.volume + v
        omega
      · exact hrest x hx2
    · by_cases hc : comp pl.price p = true
      · simp only [mapInsertVolume, hp, if_false, hc, if_true, List.mem_cons] at hx
        rcases hx with rfl | hx2
        · exact hplv
        · exact ih hrest x hx2
      · rw [Bool.not_eq_true] at hc
        simp only [mapInsertVolume, hp, if_false, hc, Bool.false_eq_true, List.mem_cons] at hx
        rcases hx with rfl | rfl | hx2
        · exact hv
        · exact hplv
        · exact hrest x hx2

theorem mapStepPosLevels {s s' : Book} {op : Op} (h : mapStep s op = some s')
    (hpos : posLevels s) (hop : posAddOp op = true) : posLevels s' := by
  obtain ⟨hb, ha⟩ := hpos
  cases op with
  | add id side p v =>
    have hv : 0 < v := by simpa [posAddOp] using hop
    cases hfo : findOrder s.orders id with
    | some d =>
      simp only [mapStep, hfo, Option.some_inj] at h
      rw [← h]
      exact ⟨hb, ha⟩
    | none =>
      cases side with
      | Bid =>
        simp only [mapStep, hfo, Option.some_inj] at h
        rw [← h]
        exact ⟨mapInsertVolume_pos hb hv, ha⟩
      | Ask =>
        simp only [mapStep, hfo, Option.some_inj] at h
        rw [← h]
        exact ⟨hb, mapInsertVolume_pos ha hv⟩
  | modify id nv =>
    cases hfo : findOrder s.orders id with
    | none =>
      simp only [mapStep, hfo, Option.some_inj] at h
      rw [← h]
      exact ⟨hb, ha⟩
    | some d =>
      cases hside : d.side with
      | Bid =>
        simp only [mapStep, hfo, hside] at h
        cases hm : modLevels findPriceIdx s.bidLevels d.price (nv - d.originalVolume) with
        | none => rw [hm] at h; cases h
        | some r =>
          rw [hm] at h
          cases r with
          | mk l2 bb =>
            cases bb <;> simp only [Option.some_inj] at h <;> rw [← h] <;>
              exact ⟨modLevels_pos hm hb, ha⟩
      | Ask =>
        simp only [mapStep, hfo, hside] at h
        cases hm : modLevels findPriceIdx s.askLevels d.price (nv - d.originalVolume) with
        | none => rw [hm] at h; cases h
        | some r =>
          rw [hm] at h
          cases r with
          | mk l2 bb =>
            cases bb <;> simp only [Option.some_inj] at h <;> rw [← h] <;>
              exact ⟨hb, modLevels_pos hm ha⟩
  | delete id =>
    cases hfo : findOrder s.orders id with
    | none =>
      simp only [mapStep, hfo, Option.some_inj] at h
      rw [← h]
      exact ⟨hb, ha⟩
    | some d =>
      cases hside : d.side with
      | Bid =>
        simp only [mapStep, hfo, hside] at h
        cases hfp : findPriceIdx s.bidLevels d.price with
        | none => rw [hfp] at h; cases h
        | some i =>
          rw [hfp] at h
          simp only [Option.some_inj] at h
          rw [← h]
          exact ⟨delLevels_pos hb, ha⟩
      | Ask =>
        simp only [mapStep, hfo, hside] at h
        cases hfp : findPriceIdx s.askLevels d.price with
        | none => rw [hfp] at h; cases h
        | some i =>
          rw [hfp] at h
          simp only [Option.some_inj] at h
          rw [← h]
          exact ⟨hb, delLevels_pos ha⟩

theorem runStrat_posLevels (K : Strategy) (ops : List Op)
    (hpos : ∀ op ∈ ops, posAddOp op = true) :
    ∀ s : Book, posLevels s → posLevels (runStrat K s ops) := by
  induction ops with
  | nil => intro s h; exact h
  | cons op rest ih =>
    intro s h
    exact ih (fun o hom => hpos o (List.mem_cons_of_mem _ hom)) (K.step s op)
      (stepPosLevels K h (hpos op (List.mem_cons_self _ _)))

theorem runMap_posLevels (ops : List Op) (hpos : ∀ op ∈ ops, posAddOp op = true) :
    ∀ s s' : Book, posLevels s → runMap s ops = some s' → posLevels s' := by
  induction ops with
  | nil =>
    intro s s' h he
    simp only [runMap, List.foldl_nil, Option.some_inj] at he
    rw [← he]
    exact h
  | cons op rest ih =>
    intro s s' h he
    rw [runMap_cons] at he
    cases hst : mapStep s op with
    | none => rw [hst] at he; cases he
    | some s1 =>
      rw [hst] at he
      exact ih (fun o hom => hpos o (List.mem_cons_of_mem _ hom)) s1 s'
        (mapStepPosLevels hst h (hpos op (List.mem_cons_self _ _))) he

/-! ## Registered orders keep positive volume (positive-volume operations) -/

theorem stepPosOrders (K : Strategy) {s : Book} (hpos : posOrders s) {op : Op}
    (hop : posOp op = true) : posOrders (K.step s op) := by
  cases op with
  | add id side p v =>
    have hv : 0 < v := by simpa [posOp] using hop
    cases hfo : findOrder s.orders id with
    | some d => simp only [Strategy.step, hfo]; exact hpos
    | none =>
      cases side with
      | Bid =>
        simp only [Strategy.step, hfo]
        intro e he
        rcases List.mem_cons.mp he with rfl | he2
        · exact hv
        · exact hpos e he2
      | Ask =>
        simp only [Strategy.step, hfo]
        intro e he
        rcases List.mem_cons.mp he with rfl | he2
        · exact hv
        · exact hpos e he2
  | modify id nv =>
    have hnv : 0 < nv := by simpa [posOp] using hop
    cases hfo : findOrder s.orders id with
    | none => simp only [Strategy.step, hfo]; exact hpos
    | some d =>
      cases hside : d.side with
      | Bid =>
        simp only [Strategy.step, hfo, hside]
        cases hm : modLevels (K.locate K.bidComp) s.bidLevels d.price (nv - d.originalVolume) with
        | none => exact hpos
        | some r =>
          cases r with
          | mk l2 bb =>
            cases bb
            · intro e he
              rcases setOrderVolume_mem he with ⟨e0, he0, heq⟩
              rcases heq with heq | heq
              · rw [heq]; exact hpos e0 he0
              · rw [heq]; exact hnv
            · intro e he
              exact hpos e (eraseOrder_mem.mp he).1
      | Ask =>
        simp only [Strategy.step, hfo, hside]
        cases hm : modLevels (K.locate K.askComp) s.askLevels d.price (nv - d.originalVolume) with
        | none => exact hpos
        | some r =>
          cases r with
          | mk l2 bb =>
            cases bb
            · intro e he
              rcases setOrderVolume_mem he with ⟨e0, he0, heq⟩
              rcases heq with heq | heq
              · rw [heq]; exact hpos e0 he0
              · rw [heq]; exact hnv
            · intro e he
              exact hpos e (eraseOrder_mem.mp he).1
  | delete id =>
    cases hfo : findOrder s.orders id with
    | none => simp only [Strategy.step, hfo]; exact hpos
    | some d =>
      cases hside : d.side with
      | Bid =>
        simp only [Strategy.step, hfo, hside]
        intro e he
        exact hpos e (eraseOrder_mem.mp he).1
      | Ask =>
        simp only [Strategy.step, hfo, hside]
        intro e he
        exact hpos e (eraseOrder_mem.mp he).1

theorem mapStep_posOrders {s s' : Book} {op : Op} (h : mapStep s op = some s')
    (hpos : posOrders s) (hop : posOp op = true) : posOrders s' := by
  cases op with
  | add id side p v =>
    have hv : 0 < v := by simpa [posOp] using hop
    cases hfo : findOrder s.orders id with
    | some d =>
      simp only [mapStep, hfo, Option.some_inj] at h
      rw [← h]; exact hpos
    | none =>
      cases side with
      | Bid =>
        simp only [mapStep, hfo, Option.some_inj] at h
        rw [← h]
        intro e he
        rcases List.mem_cons.mp he with rfl | he2
        · exact hv
        · exact hpos e he2
      | Ask =>
        simp only [mapStep, hfo, Option.some_inj] at h
        rw [← h]
        intro e he
        rcases List.mem_cons.mp he with rfl | he2
        · exact hv
        · exact hpos e he2
  | modify id nv =>
    have hnv : 0 < nv := by simpa [posOp] using hop
    cases hfo : findOrder s.orders id with
    | none =>
      simp only [mapStep, hfo, Option.some_inj] at h
      rw [← h]; exact hpos
    | some d =>
      cases hside : d.side with
      | Bid =>
        simp only [mapStep, hfo, hside] at h
        cases hm : modLevels findPriceIdx s.bidLevels d.price (nv - d.originalVolume) with
        | none => rw [hm] at h; cases h
        | some r =>
          rw [hm] at h
          cases r with
          | mk l2 bb =>
            cases bb <;> simp only [Option.some_inj] at h <;> rw [← h]
            · intro e he
              rcases setOrderVolume_mem he with ⟨e0, he0, heq⟩
              rcases heq with heq | heq
              · rw [heq]; exact hpos e0 he0
              · rw [heq]; exact hnv
            · intro e he
              exact hpos e (eraseOrder_mem.mp he).1
      | Ask =>
        simp only [mapStep, hfo, hside] at h
        cases hm : modLevels findPriceIdx s.askLevels d.price (nv - d.originalVolume) with
        | none => rw [hm] at h; cases h
        | some r =>
          rw [hm] at h
          cases r with
          | mk l2 bb =>
            cases bb <;> simp only [Option.some_inj] at h <;> rw [← h]
            · intro e he
              rcases setOrderVolume_mem he with ⟨e0, he0, heq⟩
              rcases heq with heq | heq
              · rw [heq]; exact hpos e0 he0
              · rw [heq]; exact hnv
            · intro e he
              exact hpos e (eraseOrder_mem.mp he).1
  | delete id =>
    cases hfo : findOrder s.orders id with
    | none =>
      simp only [mapStep, hfo, Option.some_inj] at h
      rw [← h]; exact hpos
    | some d =>
      cases hside : d.side with
      | Bid =>
        simp only [mapStep, hfo, hside] at h
        cases hfp : findPriceIdx s.bidLevels d.price with
        | none => rw [hfp] at h; cases h
        | some i =>
          rw [hfp] at h
          simp only [Option.some_inj] at h
          rw [← h]
          intro e he
          exact hpos e (eraseOrder_mem.mp he).1
      | Ask =>
        simp only [mapStep, hfo, hside] at h
        cases hfp : findPriceIdx s.askLevels d.price with
        | none => rw [hfp] at h; cases h
        | some i =>
          rw [hfp] at h
          simp only [Option.some_inj] at h
          rw [← h]
          intro e he
          exact hpos e (eraseOrder_mem.mp he).1

theorem runStrat_posOrders (K : Strategy) (ops : List Op)
    (hpos : ∀ op ∈ ops, posOp op = true) :
    ∀ s : Book, posOrders s → posOrders (runStrat K s ops) := by
  induction ops with
  | nil => intro s h; exact h
  | cons op rest ih =>
    intro s h
    exact ih (fun o hom => hpos o (List.mem_cons_of_mem _ hom)) (K.step s op)
      (stepPosOrders K h (hpos op (List.mem_cons_self _ _)))

/-! ## Support for the per-claim statements -/

theorem countP_price_eq_one {l : List PriceLevel} (hnd : (pricesOf l).Nodup) {p : Int}
    (hm : p ∈ pricesOf l) : l.countP (fun pl => pl.price == p) = 1 := by
  induction l with
  | nil => cases hm
  | cons pl rest ih =>
    have hnd2 : (pricesOf rest).Nodup := by
      simp only [pricesOf, List.map_cons, List.nodup_cons] at hnd
      exact hnd.2
    by_cases hp : pl.price = p
    · have habs : p ∉ pricesOf rest := by
        simp only [pricesOf, List.map_cons, List.nodup_cons] at hnd
        rw [← hp]
        exact hnd.1
      have hz : rest.countP (fun pl => pl.price == p) = 0 := by
        rw [List.countP_eq_zero]
        intro x hx
        simp only [beq_iff_eq]
        intro he
        exact habs (he ▸ List.mem_map.mpr ⟨x, hx, rfl⟩)
      rw [List.countP_cons, hz]
      simp [hp]
    · have hm2 : p ∈ pricesOf rest := by
        simp only [pricesOf, List.map_cons, List.mem_cons] at hm
        rcases hm with he | hm2
        · exact absurd he.symm hp
        · simpa [pricesOf] using hm2
      rw [List.countP_cons, ih hnd2 hm2]
      simp [hp]

theorem posInv_AggInv {s : Book} (h : PosInv s) : AggInv s := by
  obtain ⟨hw, hnd, ho, hvb, hva⟩ := h
  refine ⟨hvb, hva, ?_⟩
  intro e he
  rcases ho e he with ⟨_, hep⟩
  cases hes : e.2.side with
  | Bid =>
    rw [hes] at hep
    show s.bidLevels.countP (fun pl => pl.price == e.2.price) = 1
    exact countP_price_eq_one (sorted_nodupPrices gtC_ok hw.1) hep
  | Ask =>
    rw [hes] at hep
    show s.askLevels.countP (fun pl => pl.price == e.2.price) = 1
    exact countP_price_eq_one (sorted_nodupPrices ltC_ok hw.2) hep

theorem aggInv_couple {s t : Book} (hc : Couple s t) (h : AggInv t) : AggInv s := by
  obtain ⟨hpb, hpa, hor⟩ := hc
  obtain ⟨hvb, hva, hcount⟩ := h
  refine ⟨?_, ?_, ?_⟩
  · intro pl hpl
    rw [hor]
    exact hvb pl (hpb.mem_iff.mp hpl)
  · intro pl hpl
    rw [hor]
    exact hva pl (hpa.mem_iff.mp hpl)
  · intro e he
    have hce := hcount e (by rw [← hor]; exact he)
    cases hes : e.2.side with
    | Bid =>
      rw [hes] at hce
      show s.bidLevels.countP (fun pl => pl.price == e.2.price) = 1
      rw [hpb.countP_eq]
      exact hce
    | Ask =>
      rw [hes] at hce
      show s.askLevels.countP (fun pl => pl.price == e.2.price) = 1
      rw [hpa.countP_eq]
      exact hce

theorem levelVolAt_setVolAt_self {l : List PriceLevel} {p : Int} (hm : p ∈ pricesOf l)
    (w : Int) : levelVolAt (setVolAt l p w) p = some w := by
  induction l with
  | nil => cases hm
  | cons pl rest ih =>
    by_cases hp : pl.price = p
    · rw [setVolAt_cons, if_pos hp]
      simp [levelVolAt, List.find?_cons, hp]
    · have hm2 : p ∈ pricesOf rest := by
        simp only [pricesOf, List.map_cons, List.mem_cons] at hm
        rcases hm with he | hm2
        · exact absurd he.symm hp
        · simpa [pricesOf] using hm2
      rw [setVolAt_cons, if_neg hp]
      have hb : (pl.price == p) = false := by simpa using hp
      simp only [levelVolAt, List.find?_cons, hb]
      exact ih hm2

theorem levelVolAt_dropPrice_self (l : List PriceLevel) (p : Int) :
    levelVolAt (dropPrice l p) p = none := by
  rw [levelVolAt_none_iff, findPriceIdx_none_iff]
  intro hm
  exact (pricesOf_dropPrice_mem.mp hm).2 rfl

theorem findOrder_eraseOrder_self (os : List (Nat × OrderDetails)) (id : Nat) :
    findOrder (eraseOrder os id) id = none := by
  rw [findOrder_eq_none_iff]
  intro e he
  exact (eraseOrder_mem.mp he).2

theorem findOrder_setOrderVolume_self {os : List (Nat × OrderDetails)} {id : Nat}
    {d : OrderDetails} (h : findOrder os id = some d) (nv : Int) :
    findOrder (setOrderVolume os id nv) id = some ⟨d.side, d.price, nv⟩ := by
  induction os with
  | nil => cases h
  | cons e rest ih =>
    by_cases he : e.1 = id
    · have hb : (e.1 == id) = true := by simpa using he
      simp only [findOrder, List.find?_cons, hb] at h
      simp only [Option.map_some', Option.some_inj] at h
      rw [setOrderVolume_cons, if_pos he]
      simp only [findOrder, List.find?_cons, hb]
      simp [← h]
    · have hb : (e.1 == id) = false := by simpa using he
      simp only [findOrder, List.find?_cons, hb] at h
      rw [setOrderVolume_cons, if_neg he]
      simp only [findOrder, List.find?_cons, hb]
      exact ih h

/-! ## The branchless book takes exactly the binary-search book transitions -/

theorem blbStep_eq_effStep {s : Book} (hwf : WF stratEfficient s) (op : Op) :
    stratBranchless.step s op = stratEfficient.step s op := by
  have hwb : SortedBy stratBranchless.bidComp s.bidLevels := hwf.1
  have hwa : SortedBy stratBranchless.askComp s.askLevels := hwf.2
  cases op with
  | add id side p v =>
    cases hfo : findOrder s.orders id with
    | some d => simp only [Strategy.step, hfo]
    | none =>
      cases side with
      | Bid =>
        simp only [Strategy.step, hfo]
        rw [stratBranchless_ok.searchEq stratBranchless.bidComp s.bidLevels p
            (show CompOk stratBranchless.bidComp from ltC_ok) hwb,
          stratEfficient_ok.searchEq stratEfficient.bidComp s.bidLevels p
            (show CompOk stratEfficient.bidComp from ltC_ok) hwf.1]
        rfl
      | Ask =>
        simp only [Strategy.step, hfo]
        rw [stratBranchless_ok.searchEq stratBranchless.askComp s.askLevels p
            (show CompOk stratBranchless.askComp from gtC_ok) hwa,
          stratEfficient_ok.searchEq stratEfficient.askComp s.askLevels p
            (show CompOk stratEfficient.askComp from gtC_ok) hwf.2]
        rfl
  | modify id nv =>
    cases hfo : findOrder s.orders id with
    | none => simp only [Strategy.step, hfo]
    | some d =>
      cases hside : d.side with
      | Bid =>
        simp only [Strategy.step, hfo, hside]
        rw [modLevels_locate_eq stratBranchless_ok
            (show CompOk stratBranchless.bidComp from ltC_ok) hwb d.price (nv - d.originalVolume),
          modLevels_locate_eq stratEfficient_ok
            (show CompOk stratEfficient.bidComp from ltC_ok) hwf.1 d.price (nv - d.originalVolume)]
      | Ask =>
        simp only [Strategy.step, hfo, hside]
        rw [modLevels_locate_eq stratBranchless_ok
            (show CompOk stratBranchless.askComp from gtC_ok) hwa d.price (nv - d.originalVolume),
          modLevels_locate_eq stratEfficient_ok
            (show CompOk stratEfficient.askComp from gtC_ok) hwf.2 d.price (nv - d.originalVolume)]
  | delete id =>
    cases hfo : findOrder s.orders id with
    | none => simp only [Strategy.step, hfo]
    | some d =>
      cases hside : d.side with
      | Bid =>
        simp only [Strategy.step, hfo, hside]
        rw [delLevels_locate_eq stratBranchless_ok
            (show CompOk stratBranchless.bidComp from ltC_ok) hwb d.price d.originalVolume,
          delLevels_locate_eq stratEfficient_ok
            (show CompOk stratEfficient.bidComp from ltC_ok) hwf.1 d.price d.originalVolume]
      | Ask =>
        simp only [Strategy.step, hfo, hside]
        rw [delLevels_locate_eq stratBranchless_ok
            (show CompOk stratBranchless.askComp from gtC_ok) hwa d.price d.originalVolume,
          delLevels_locate_eq stratEfficient_ok
            (show CompOk stratEfficient.askComp from gtC_ok) hwf.2 d.price d.originalVolume]

theorem blbRun_eq_effRun_aux (ops : List Op) :
    ∀ s : Book, WF stratEfficient s →
      runStrat stratBranchless s ops = runStrat stratEfficient s ops := by
  induction ops with
  | nil => intro s _; rfl
  | cons op rest ih =>
    intro s hwf
    show runStrat stratBranchless (stratBranchless.step s op) rest =
      runStrat stratEfficient (stratEfficient.step s op) rest
    rw [blbStep_eq_effStep hwf op]
    exact ih (stratEfficient.step s op) (stepWF stratEfficient_ok hwf op)

theorem branchlessRun_eq_efficientRun (ops : List Op) : branchlessRun ops = efficientRun ops :=
  blbRun_eq_effRun_aux ops Book.empty (WF_empty _)

/-! ## Claim theorems -/

theorem posLevels_empty : posLevels Book.empty :=
  ⟨fun x hx => absurd hx (List.not_mem_nil x), fun x hx => absurd hx (List.not_mem_nil x)⟩

theorem posOrders_empty : posOrders Book.empty :=
  fun e he => absurd he (List.not_mem_nil e)

/-- C1 counterexample: on this operation sequence (legal calls through the
public interface, one modify with a negative volume) the map book's
`ModifyOrder` dereferences the level iterator stored for order 2 after
that level's node was erased — undefined behaviour in the source,
modelled as `none` — so it cannot return the same `GetBestPrices()` pair
as the vector books, which stay defined and return `(0, 0)`. -/
theorem c1_counterexample :
    mapRun [Op.add 1 Side.Bid 100 50, Op.add 2 Side.Bid 100 30, Op.modify 1 (-100),
      Op.modify 2 5] = none ∧
    vectorBest [Op.add 1 Side.Bid 100 50, Op.add 2 Side.Bid 100 30, Op.modify 1 (-100),
      Op.modify 2 5] = (0, 0) := by decide

/-- C1 (amended): after every prefix of every operation sequence the four
vector books return identical `GetBestPrices()` pairs, and the map book
agrees as well on every sequence of positive-volume operations (the only
sequences the load generator emits); on other sequences the map book can
dereference an invalidated iterator. -/
theorem c1_amended_equivalence (ops : List Op) (n : Nat) :
    efficientBest (ops.take n) = vectorBest (ops.take n) ∧
    branchlessBest (ops.take n) = vectorBest (ops.take n) ∧
    linearBest (ops.take n) = vectorBest (ops.take n) ∧
    (allPos ops → (mapRun (ops.take n)).map mapBest = some (vectorBest (ops.take n))) := by
  refine ⟨efficientBest_eq_vectorBest _, branchlessBest_eq_vectorBest _,
    linearBest_eq_vectorBest _, ?_⟩
  intro hpos
  have hpre : allPos (ops.take n) := fun op hm => hpos op ((List.take_sublist n ops).subset hm)
  rcases posRun (ops.take n) hpre with ⟨_, hmap⟩
  rw [hmap, Option.map_some', mapBest_eq_vectorBest]
  rfl

theorem c1_amended_equivalence_witness :
    (mapRun ([Op.add 1 Side.Bid 100 50, Op.add 2 Side.Ask 150 30].take 2)).map mapBest =
      some (vectorBest ([Op.add 1 Side.Bid 100 50, Op.add 2 Side.Ask 150 30].take 2)) :=
  (c1_amended_equivalence [Op.add 1 Side.Bid 100 50, Op.add 2 Side.Ask 150 30] 2).2.2.2
    (by intro op h; fin_cases h <;> decide)

/-- C2 counterexample: after the single operation `addOrder(1, Bid, 100, 50)`
every implementation returns `(0, 0)` — not `(100, 0)` — because
`GetBestPrices` returns the sentinel as soon as either side is empty, and
the ask side is empty here. -/
theorem c2_counterexample :
    vectorBest [Op.add 1 Side.Bid 100 50] = (0, 0) ∧
    ((0, 0) : Int × Int) ≠ ((100 : Int), (0 : Int)) := by decide

/-- C2 (amended): on the empty book `GetBestPrices()` returns `(0, 0)`, and
after the single operation `addOrder(1, Bid, 100, 50)` it still returns
`(0, 0)` in all five implementations: each component is reported only when
both sides are non-empty; the pair is `(0, 0)` whenever either side is
empty. -/
theorem c2_amended_boundary :
    (vectorBest [] = (0, 0) ∧ efficientBest [] = (0, 0) ∧ branchlessBest [] = (0, 0) ∧
      linearBest [] = (0, 0) ∧ (mapRun []).map mapBest = some ((0 : Int), (0 : Int))) ∧
    (vectorBest [Op.add 1 Side.Bid 100 50] = (0, 0) ∧
      efficientBest [Op.add 1 Side.Bid 100 50] = (0, 0) ∧
      branchlessBest [Op.add 1 Side.Bid 100 50] = (0, 0) ∧
      linearBest [Op.add 1 Side.Bid 100 50] = (0, 0) ∧
      (mapRun [Op.add 1 Side.Bid 100 50]).map mapBest = some ((0 : Int), (0 : Int))) := by
  decide

/-- C3: in every book state with at least one empty side, `GetBestPrices`
returns the sentinel `(0, 0)` — in every vector strategy (`K` ranges over
all of them, in particular the four of the source) and in the map book;
it is ordinary output, not an error. -/
theorem c3_empty_side_sentinel (K : Strategy) (s : Book)
    (h : s.bidLevels = [] ∨ s.askLevels = []) :
    K.best s = (0, 0) ∧ mapBest s = (0, 0) := by
  rcases h with h | h <;> constructor <;> simp [Strategy.best, mapBest, h]

theorem c3_empty_side_sentinel_witness :
    stratVector.best ⟨[], [⟨150, 30⟩], []⟩ = (0, 0) ∧
    mapBest ⟨[], [⟨150, 30⟩], []⟩ = (0, 0) :=
  c3_empty_side_sentinel stratVector ⟨[], [⟨150, 30⟩], []⟩ (Or.inl rfl)

/-- C4 counterexample: after `addOrder(1,Bid,100,50); addOrder(2,Bid,100,30);
modifyOrder(1,-100)` the level at price 100 is erased together with order 1,
but order 2 stays registered at `(Bid, 100)` with remaining volume 30 — a
live order whose price maps to zero levels on its side, so the claimed
invariant fails (and the erased aggregate `-70` was not the sum `30`). -/
theorem c4_counterexample :
    findOrder (vectorRun [Op.add 1 Side.Bid 100 50, Op.add 2 Side.Bid 100 30,
      Op.modify 1 (-100)]).orders 2 = some ⟨Side.Bid, 100, 30⟩ ∧
    (vectorRun [Op.add 1 Side.Bid 100 50, Op.add 2 Side.Bid 100 30,
      Op.modify 1 (-100)]).bidLevels.countP (fun pl => pl.price == 100) = 0 := by decide

/-- C4 (amended): on every sequence of positive-volume operations, in all
five implementations, every level's aggregated volume equals
Σ remainingVolume of the live orders at its `(price, side)` and every live
order's price maps to exactly one level on its side. -/
theorem c4_amended_aggregation (ops : List Op) (hpos : allPos ops) :
    AggInv (vectorRun ops) ∧ AggInv (efficientRun ops) ∧ AggInv (branchlessRun ops) ∧
    AggInv (linearRun ops) ∧ ∀ s, mapRun ops = some s → AggInv s := by
  have hinv := (posRun ops hpos).1
  have hAgg := posInv_AggInv hinv
  refine ⟨hAgg, ?_, ?_, ?_, ?_⟩
  · exact aggInv_couple (runCouple stratEfficient_ok ops Book.empty Book.empty (WF_empty _)
      (WF_empty _) (Couple_refl _)) hAgg
  · exact aggInv_couple (runCouple stratBranchless_ok ops Book.empty Book.empty (WF_empty _)
      (WF_empty _) (Couple_refl _)) hAgg
  · exact aggInv_couple (runCouple stratLinear_ok ops Book.empty Book.empty (WF_empty _)
      (WF_empty _) (Couple_refl _)) hAgg
  · intro s hs
    rw [(posRun ops hpos).2] at hs
    injection hs with hs
    rw [← hs]
    exact hAgg

theorem c4_amended_aggregation_witness :
    AggInv (vectorRun [Op.add 3 Side.Bid 100 20, Op.add 4 Side.Bid 100 30, Op.delete 3]) :=
  (c4_amended_aggregation [Op.add 3 Side.Bid 100 20, Op.add 4 Side.Bid 100 30, Op.delete 3]
    (by intro op h; fin_cases h <;> decide)).1

/-- C5: after any operation sequence, whenever both sides hold at least one
level, `GetBestPrices` returns exactly the pair (maximum live bid price,
minimum live ask price) in all five implementations, whether the store is
front-best or back-best. -/
theorem c5_best_is_extreme (ops : List Op) :
    ((vectorRun ops).bidLevels ≠ [] → (vectorRun ops).askLevels ≠ [] →
      BestSpec (vectorBest ops) (vectorRun ops)) ∧
    ((efficientRun ops).bidLevels ≠ [] → (efficientRun ops).askLevels ≠ [] →
      BestSpec (efficientBest ops) (efficientRun ops)) ∧
    ((branchlessRun ops).bidLevels ≠ [] → (branchlessRun ops).askLevels ≠ [] →
      BestSpec (branchlessBest ops) (branchlessRun ops)) ∧
    ((linearRun ops).bidLevels ≠ [] → (linearRun ops).askLevels ≠ [] →
      BestSpec (linearBest ops) (linearRun ops)) ∧
    (∀ s, mapRun ops = some s → s.bidLevels ≠ [] → s.askLevels ≠ [] →
      BestSpec (mapBest s) s) := by
  refine ⟨?_, ?_, ?_, ?_, ?_⟩
  · intro hb ha
    exact best_spec_front (runWF stratVector_ok ops Book.empty (WF_empty _)) hb ha
  · intro hb ha
    exact best_spec_back (runWF stratEfficient_ok ops Book.empty (WF_empty _)) hb ha
  · intro hb ha
    exact best_spec_back
      (show WF stratEfficient _ from runWF stratBranchless_ok ops Book.empty (WF_empty _)) hb ha
  · intro hb ha
    exact best_spec_back
      (show WF stratEfficient _ from runWF stratLinear_ok ops Book.empty (WF_empty _)) hb ha
  · intro s hs hb ha
    exact best_spec_front (runMap_WF ops Book.empty s (WF_empty _) hs) hb ha

theorem c5_best_is_extreme_witness :
    BestSpec (vectorBest [Op.add 1 Side.Bid 100 50, Op.add 3 Side.Bid 105 10,
      Op.add 2 Side.Ask 150 30]) (vectorRun [Op.add 1 Side.Bid 100 50,
      Op.add 3 Side.Bid 105 10, Op.add 2 Side.Ask 150 30]) :=
  (c5_best_is_extreme [Op.add 1 Side.Bid 100 50, Op.add 3 Side.Bid 105 10,
    Op.add 2 Side.Ask 150 30]).1 (by decide) (by decide)

/-- C6: `modifyOrder` on a live order computes `delta = newVolume -
remainingVolume`, applies it to the aggregate `V` of the order's level, and
if `V + delta ≤ 0` removes both the level and the order (implicit full
cancel), otherwise keeps both with the level at `V + delta` and the order
at `newVolume` — in every vector strategy and in the map book; in
particular `addOrder(2, Ask, 150, 30); modifyOrder(2, 0)` empties the book
and `bestAsk = 0`. -/
theorem c6_modify_semantics :
    (∀ (K : Strategy), StratOk K → ∀ (s : Book), WF K s → ∀ (id : Nat) (nv : Int)
      (d : OrderDetails) (V : Int),
      findOrder s.orders id = some d →
      levelVolAt (sideLevels s d.side) d.price = some V →
      (V + (nv - d.originalVolume) ≤ 0 →
        levelVolAt (sideLevels (K.step s (Op.modify id nv)) d.side) d.price = none ∧
        findOrder (K.step s (Op.modify id nv)).orders id = none) ∧
      (0 < V + (nv - d.originalVolume) →
        levelVolAt (sideLevels (K.step s (Op.modify id nv)) d.side) d.price =
          some (V + (nv - d.originalVolume)) ∧
        findOrder (K.step s (Op.modify id nv)).orders id = some ⟨d.side, d.price, nv⟩)) ∧
    (∀ (s : Book), WF stratVector s → ∀ (id : Nat) (nv : Int) (d : OrderDetails) (V : Int),
      findOrder s.orders id = some d →
      levelVolAt (sideLevels s d.side) d.price = some V →
      ∃ s', mapStep s (Op.modify id nv) = some s' ∧
        (V + (nv - d.originalVolume) ≤ 0 →
          levelVolAt (sideLevels s' d.side) d.price = none ∧
          findOrder s'.orders id = none) ∧
        (0 < V + (nv - d.originalVolume) →
          levelVolAt (sideLevels s' d.side) d.price = some (V + (nv - d.originalVolume)) ∧
          findOrder s'.orders id = some ⟨d.side, d.price, nv⟩)) ∧
    (vectorRun [Op.add 2 Side.Ask 150 30, Op.modify 2 0] = ⟨[], [], []⟩ ∧
      vectorBest [Op.add 2 Side.Ask 150 30, Op.modify 2 0] = (0, 0) ∧
      mapRun [Op.add 2 Side.Ask 150 30, Op.modify 2 0] = some ⟨[], [], []⟩) := by
  refine ⟨?_, ?_, by decide⟩
  · intro K hK s hwf id nv d V hfo hV
    cases hside : d.side with
    | Bid =>
      rw [hside] at hV
      have hV2 : levelVolAt s.bidLevels d.price = some V := hV
      have hnd : (pricesOf s.bidLevels).Nodup := sorted_nodupPrices hK.bidOk hwf.1
      constructor
      · intro hle
        have hcanon : modLevels (K.locate K.bidComp) s.bidLevels d.price
            (nv - d.originalVolume) = some (dropPrice s.bidLevels d.price, true) := by
          rw [modLevels_locate_eq hK hK.bidOk hwf.1, modLevels_canon _ _ _ hnd, hV2]
          exact if_pos hle
        have hstep : K.step s (Op.modify id nv) =
            { s with bidLevels := dropPrice s.bidLevels d.price,
                     orders := eraseOrder s.orders id } := by
          simp only [Strategy.step, hfo, hside]
          rw [hcanon]
        rw [hstep]
        exact ⟨levelVolAt_dropPrice_self _ _, findOrder_eraseOrder_self _ _⟩
      · intro hgt
        have hcanon : modLevels (K.locate K.bidComp) s.bidLevels d.price
            (nv - d.originalVolume) =
            some (setVolAt s.bidLevels d.price (V + (nv - d.originalVolume)), false) := by
          rw [modLevels_locate_eq hK hK.bidOk hwf.1, modLevels_canon _ _ _ hnd, hV2]
          exact if_neg (by omega)
        have hstep : K.step s (Op.modify id nv) =
            { s with bidLevels := setVolAt s.bidLevels d.price (V + (nv - d.originalVolume)),
                     orders := setOrderVolume s.orders id nv } := by
          simp only [Strategy.step, hfo, hside]
          rw [hcanon]
        rw [hstep]
        refine ⟨levelVolAt_setVolAt_self (levelVolAt_mem_prices hV2) _, ?_⟩
        have hset := findOrder_setOrderVolume_self hfo nv
        rw [hside] at hset
        exact hset
    | Ask =>
      rw [hside] at hV
      have hV2 : levelVolAt s.askLevels d.price = some V := hV
      have hnd : (pricesOf s.askLevels).Nodup := sorted_nodupPrices hK.askOk hwf.2
      constructor
      · intro hle
        have hcanon : modLevels (K.locate K.askComp) s.askLevels d.price
            (nv - d.originalVolume) = some (dropPrice s.askLevels d.price, true) := by
          rw [modLevels_locate_eq hK hK.askOk hwf.2, modLevels_canon _ _ _ hnd, hV2]
          exact if_pos hle
        have hstep : K.step s (Op.modify id nv) =
            { s with askLevels := dropPrice s.askLevels d.price,
                     orders := eraseOrder s.orders id } := by
          simp only [Strategy.step, hfo, hside]
          rw [hcanon]
        rw [hstep]
        exact ⟨levelVolAt_dropPrice_self _ _, findOrder_eraseOrder_self _ _⟩
      · intro hgt
        have hcanon : modLevels (K.locate K.askComp) s.askLevels d.price
            (nv - d.originalVolume) =
            some (setVolAt s.askLevels d.price (V + (nv - d.originalVolume)), false) := by
          rw [modLevels_locate_eq hK hK.askOk hwf.2, modLevels_canon _ _ _ hnd, hV2]
          exact if_neg (by omega)
        have hstep : K.step s (Op.modify id nv) =
            { s with askLevels := setVolAt s.askLevels d.price (V + (nv - d.originalVolume)),
                     orders := setOrderVolume s.orders id nv } := by
          simp only [Strategy.step, hfo, hside]
          rw [hcanon]
        rw [hstep]
        refine ⟨levelVolAt_setVolAt_self (levelVolAt_mem_prices hV2) _, ?_⟩
        have hset := findOrder_setOrderVolume_self hfo nv
        rw [hside] at hset
        exact hset
  · intro s hwf id nv d V hfo hV
    cases hside : d.side with
    | Bid =>
      rw [hside] at hV
      have hV2 : levelVolAt s.bidLevels d.price = some V := hV
      have hnd : (pricesOf s.bidLevels).Nodup :=
        sorted_nodupPrices (show CompOk stratVector.bidComp from gtC_ok) hwf.1
      by_cases hle : V + (nv - d.originalVolume) ≤ 0
      · have hcanon : modLevels findPriceIdx s.bidLevels d.price (nv - d.originalVolume)
            = some (dropPrice s.bidLevels d.price, true) := by
          rw [modLevels_canon _ _ _ hnd, hV2]
          exact if_pos hle
        refine ⟨{ s with bidLevels := dropPrice s.bidLevels d.price,
                         orders := eraseOrder s.orders id }, ?_, ?_, ?_⟩
        · simp only [mapStep, hfo, hside]
          rw [hcanon]
        · intro _
          exact ⟨levelVolAt_dropPrice_self _ _, findOrder_eraseOrder_self _ _⟩
        · intro hgt
          exact absurd hgt (by omega)
      · have hgt0 : ¬ V + (nv - d.originalVolume) ≤ 0 := hle
        have hcanon : modLevels findPriceIdx s.bidLevels d.price (nv - d.originalVolume)
            = some (setVolAt s.bidLevels d.price (V + (nv - d.originalVolume)), false) := by
          rw [modLevels_canon _ _ _ hnd, hV2]
          exact if_neg hgt0
        refine ⟨{ s with
            bidLevels := setVolAt s.bidLevels d.price (V + (nv - d.originalVolume)),
            orders := setOrderVolume s.orders id nv }, ?_, ?_, ?_⟩
        · simp only [mapStep, hfo, hside]
          rw [hcanon]
        · intro hle2
          exact absurd hle2 hgt0
        · intro _
          refine ⟨levelVolAt_setVolAt_self (levelVolAt_mem_prices hV2) _, ?_⟩
          have hset := findOrder_setOrderVolume_self hfo nv
          rw [hside] at hset
          exact hset
    | Ask =>
      rw [hside] at hV
      have hV2 : levelVolAt s.askLevels d.price = some V := hV
      have hnd : (pricesOf s.askLevels).Nodup :=
        sorted_nodupPrices (show CompOk stratVector.askComp from ltC_ok) hwf.2
      by_cases hle : V + (nv - d.originalVolume) ≤ 0
      · have hcanon : modLevels findPriceIdx s.askLevels d.price (nv - d.originalVolume)
            = some (dropPrice s.askLevels d.price, true) := by
          rw [modLevels_canon _ _ _ hnd, hV2]
          exact if_pos hle
        refine ⟨{ s with askLevels := dropPrice s.askLevels d.price,
                         orders := eraseOrder s.orders id }, ?_, ?_, ?_⟩
        · simp only [mapStep, hfo, hside]
          rw [hcanon]
        · intro _
          exact ⟨levelVolAt_dropPrice_self _ _, findOrder_eraseOrder_self _ _⟩
        · intro hgt
          exact absurd hgt (by omega)
      · have hgt0 : ¬ V + (nv - d.originalVolume) ≤ 0 := hle
        have hcanon : modLevels findPriceIdx s.askLevels d.price (nv - d.originalVolume)
            = some (setVolAt s.askLevels d.price (V + (nv - d.originalVolume)), false) := by
          rw [modLevels_canon _ _ _ hnd, hV2]
          exact if_neg hgt0
        refine ⟨{ s with
            askLevels := setVolAt s.askLevels d.price (V + (nv - d.originalVolume)),
            orders := setOrderVolume s.orders id nv }, ?_, ?_, ?_⟩
        · simp only [mapStep, hfo, hside]
          rw [hcanon]
        · intro hle2
          exact absurd hle2 hgt0
        · intro _
          refine ⟨levelVolAt_setVolAt_self (levelVolAt_mem_prices hV2) _, ?_⟩
          have hset := findOrder_setOrderVolume_self hfo nv
          rw [hside] at hset
          exact hset

theorem c6_modify_semantics_witness :
    levelVolAt (sideLevels (stratVector.step ⟨[], [⟨150, 30⟩], [(2, ⟨Side.Ask, 150, 30⟩)]⟩
      (Op.modify 2 0)) Side.Ask) 150 = none ∧
    findOrder (stratVector.step ⟨[], [⟨150, 30⟩], [(2, ⟨Side.Ask, 150, 30⟩)]⟩
      (Op.modify 2 0)).orders 2 = none :=
  (c6_modify_semantics.1 stratVector stratVector_ok
    ⟨[], [⟨150, 30⟩], [(2, ⟨Side.Ask, 150, 30⟩)]⟩ ⟨by simp [SortedBy], by simp [SortedBy]⟩
    2 0 ⟨Side.Ask, 150, 30⟩ 30 (by decide) (by decide)).1 (by decide)

/-- C7 counterexample: `addOrder(1, Bid, 100, 0)` creates a bid level with
aggregated volume 0 that persists in the book (vector and map alike), so
"a level with aggregatedVolume ≤ 0 is removed immediately; levels never
persist at zero or negative volume" fails: `AddOrderImpl` never checks the
aggregate it produces. -/
theorem c7_counterexample :
    (vectorRun [Op.add 1 Side.Bid 100 0]).bidLevels = [⟨100, 0⟩] ∧
    mapRun [Op.add 1 Side.Bid 100 0] =
      some ⟨[⟨100, 0⟩], [], [(1, ⟨Side.Bid, 100, 0⟩)]⟩ := by decide

/-- C7 (amended): whenever every `addOrder` of the sequence carries positive
volume (modify and delete arguments unconstrained), every level present
after the run has positive aggregated volume, in all five implementations;
`ModifyOrder` and `DeleteOrder` do remove a level as soon as its aggregate
drops to 0 or below, but `AddOrder` can create a non-positive one. -/
theorem c7_amended_positive_levels (ops : List Op) (hpos : allPosAdd ops) :
    posLevels (vectorRun ops) ∧ posLevels (efficientRun ops) ∧
    posLevels (branchlessRun ops) ∧ posLevels (linearRun ops) ∧
    ∀ s, mapRun ops = some s → posLevels s :=
  ⟨runStrat_posLevels stratVector ops hpos Book.empty posLevels_empty,
    runStrat_posLevels stratEfficient ops hpos Book.empty posLevels_empty,
    runStrat_posLevels stratBranchless ops hpos Book.empty posLevels_empty,
    runStrat_posLevels stratLinear ops hpos Book.empty posLevels_empty,
    fun s hs => runMap_posLevels ops hpos Book.empty s posLevels_empty hs⟩

theorem c7_amended_positive_levels_witness :
    posLevels (vectorRun [Op.add 1 Side.Bid 100 50, Op.modify 1 (-5)]) :=
  (c7_amended_positive_levels [Op.add 1 Side.Bid 100 50, Op.modify 1 (-5)]
    (by intro op h; fin_cases h <;> decide)).1

/-- C8 counterexample: `addOrder(1,Bid,100,50); addOrder(2,Bid,100,30);
modifyOrder(2,0)` leaves order 2 live with remaining volume 0 (the level
aggregate stays 50 > 0, so the implicit-cancel path is not taken and the
registry records newVolume = 0), refuting "an order is live while its
remaining volume is > 0": liveness is decided by the level aggregate, not
the order's own volume. -/
theorem c8_counterexample :
    findOrder (vectorRun [Op.add 1 Side.Bid 100 50, Op.add 2 Side.Bid 100 30,
      Op.modify 2 0]).orders 2 = some ⟨Side.Bid, 100, 0⟩ ∧
    (vectorRun [Op.add 1 Side.Bid 100 50, Op.add 2 Side.Bid 100 30,
      Op.modify 2 0]).bidLevels = [⟨100, 50⟩] := by decide

/-- C8 (amended): on sequences all of whose add and modify volumes are
positive (the only sequences the load generator emits), every registered
order keeps positive remaining volume, in all five implementations; a
modify to a non-positive volume can instead leave a live order at volume
≤ 0 when other orders keep the level's aggregate positive. -/
theorem c8_amended_positive_orders (ops : List Op) (hpos : allPos ops) :
    posOrders (vectorRun ops) ∧ posOrders (efficientRun ops) ∧
    posOrders (branchlessRun ops) ∧ posOrders (linearRun ops) ∧
    ∀ s, mapRun ops = some s → posOrders s := by
  refine ⟨runStrat_posOrders stratVector ops hpos Book.empty posOrders_empty,
    runStrat_posOrders stratEfficient ops hpos Book.empty posOrders_empty,
    runStrat_posOrders stratBranchless ops hpos Book.empty posOrders_empty,
    runStrat_posOrders stratLinear ops hpos Book.empty posOrders_empty, ?_⟩
  intro s hs
  rw [(posRun ops hpos).2] at hs
  injection hs with hs
  rw [← hs]
  exact runStrat_posOrders stratVector ops hpos Book.empty posOrders_empty

theorem c8_amended_positive_orders_witness :
    posOrders (vectorRun [Op.add 1 Side.Bid 100 50, Op.modify 1 20]) :=
  (c8_amended_positive_orders [Op.add 1 Side.Bid 100 50, Op.modify 1 20]
    (by intro op h; fin_cases h <;> decide)).1

/-- C9: `branchless_lower_bound` returns the same index as
`std::lower_bound` (the first position whose element does not compare
before the key) on every transitively-compared strictly sorted range, and
consequently the branchless book reaches exactly the same state as the
efficient book after every operation sequence — identical results,
differing only in latency. -/
theorem c9_branchless_equals_lower_bound :
    (∀ {α : Type} (comp : α → α → Bool) (l : List α) (v : α),
      (∀ a b c, comp a b = true → comp b c = true → comp a c = true) →
      l.Pairwise (fun a b => comp a b = true) →
      branchlessLowerBound comp l v = stdLowerBound comp l v) ∧
    (∀ ops : List Op, branchlessRun ops = efficientRun ops) := by
  constructor
  · intro α comp l v htr hs
    exact branchlessLowerBound_eq comp l v (pairwise_partitioned comp l v htr hs)
  · exact branchlessRun_eq_efficientRun

theorem c9_branchless_equals_lower_bound_witness :
    branchlessLowerBound ltC [10, 20, 30, 40] 25 = stdLowerBound ltC [10, 20, 30, 40] 25 :=
  c9_branchless_equals_lower_bound.1 ltC [10, 20, 30, 40] 25
    (fun a b c h1 h2 => ltC_ok.trans a b c h1 h2) (by decide)

/-- C10: `addOrder` on an id that is currently registered is a strict
no-op (the state is returned unchanged), and `modifyOrder` and
`deleteOrder` on an unregistered id are strict no-ops — in every vector
strategy and in the map book; no error is raised (the map book's fallible
step returns `some s`). -/
theorem c10_noop_cases (K : Strategy) (s : Book) (id : Nat) (side : Side) (p v nv : Int) :
    ((findOrder s.orders id).isSome = true →
      K.step s (Op.add id side p v) = s ∧ mapStep s (Op.add id side p v) = some s) ∧
    (findOrder s.orders id = none →
      K.step s (Op.modify id nv) = s ∧ K.step s (Op.delete id) = s ∧
      mapStep s (Op.modify id nv) = some s ∧ mapStep s (Op.delete id) = some s) := by
  constructor
  · intro h
    cases hfo : findOrder s.orders id with
    | none => rw [hfo] at h; simp at h
    | some d =>
      constructor
      · simp only [Strategy.step, hfo]
      · simp only [mapStep, hfo]
  · intro h
    refine ⟨?_, ?_, ?_, ?_⟩ <;> simp only [Strategy.step, mapStep, h]

theorem c10_noop_cases_witness :
    stratVector.step ⟨[⟨100, 50⟩], [], [(1, ⟨Side.Bid, 100, 50⟩)]⟩
        (Op.add 1 Side.Ask 200 10) = ⟨[⟨100, 50⟩], [], [(1, ⟨Side.Bid, 100, 50⟩)]⟩ ∧
      mapStep ⟨[⟨100, 50⟩], [], [(1, ⟨Side.Bid, 100, 50⟩)]⟩ (Op.add 1 Side.Ask 200 10) =
        some ⟨[⟨100, 50⟩], [], [(1, ⟨Side.Bid, 100, 50⟩)]⟩ :=
  (c10_noop_cases stratVector ⟨[⟨100, 50⟩], [], [(1, ⟨Side.Bid, 100, 50⟩)]⟩ 1 Side.Ask
    200 10 0).1 (by decide)
